import Mathlib

/-!
Verification development for the tenable-mcp-docs repository.

The TypeScript sources are shallowly embedded as Lean definitions:

* `src/utils/indexer.ts`  — keyword extraction, index maps, scored search;
* `src/tools/search.ts`   — query validation, `searchDocs`, the LRU cache;
* `src/utils/converter.ts`— `cleanMarkdown`;
* `src/utils/scraper.ts`  — `cleanHTML`, `preserveCodeBlocks`,
  `restoreCodeBlocks`, `cleanHTMLPreservingCodeBlocks`;
* `src/tools/read.ts`     — URL validation, `readPage`, the 404 fallback.

JavaScript strings are modelled as `List Char` (wrapped in `String` at the
boundaries).  JavaScript's `Map` is modelled as an insertion-ordered
association list, matching the iteration order guaranteed by the language.
External collaborators (the HTTP fetcher, the turndown converter, the
cheerio HTML parser) are modelled as explicit function parameters or as
operations on an explicit HTML tree type, as documented at each definition.
-/

/-! ## JavaScript string primitives -/

/-- The ASCII whitespace characters recognised by JavaScript's `\s`, `trim`
and friends (the model is restricted to ASCII; the repository only ever
feeds ASCII metacharacters through these paths). -/
def isJsWs (c : Char) : Bool :=
  c = ' ' || c = '\t' || c = '\n' || c = '\r' || c = '\x0b' || c = '\x0c'

/-- `String.prototype.trim` on a character list. -/
def jsTrimL (l : List Char) : List Char :=
  (l.dropWhile isJsWs).rdropWhile isJsWs

/-- `String.prototype.trim`. -/
def jsTrim (s : String) : String := ⟨jsTrimL s.data⟩

mutual
/-- `split(/\s+/)`: accumulating a token (`acc` is reversed). -/
def splitWsGo (acc : List Char) : List Char → List (List Char)
  | [] => [acc.reverse]
  | c :: cs => if isJsWs c then acc.reverse :: splitWsSkip cs else splitWsGo (c :: acc) cs

/-- `split(/\s+/)`: skipping the interior of a whitespace run. -/
def splitWsSkip : List Char → List (List Char)
  | [] => [[]]
  | c :: cs => if isJsWs c then splitWsSkip cs else splitWsGo [c] cs
end

/-- JavaScript `s.split(/\s+/)`: splits on runs of whitespace, keeping the
empty leading/trailing pieces that JavaScript produces (they are removed by
the length filters downstream). -/
def splitWsJS (l : List Char) : List (List Char) := splitWsGo [] l

/-- Replace every maximal run of characters satisfying `p` by the single
character `r` (models `replace(/X+/g, r)` for a character class `X`).
The flag records whether the previous character was part of a run. -/
def runReplAux (p : Char → Bool) (r : Char) : Bool → List Char → List Char
  | _, [] => []
  | prev, c :: cs =>
    if p c then
      (if prev then runReplAux p r true cs else r :: runReplAux p r true cs)
    else c :: runReplAux p r false cs

def runRepl (p : Char → Bool) (r : Char) (l : List Char) : List Char :=
  runReplAux p r false l

/-- Leftmost-match search: does `pat` occur as a contiguous substring? -/
def occursIn (pat : List Char) : List Char → Bool
  | [] => pat.isEmpty
  | c :: cs => pat.isPrefixOf (c :: cs) || occursIn pat cs

/-! ## `src/utils/indexer.ts` -/

/-- `IndexedDoc` (indexer.ts). -/
structure IndexedDoc where
  url : String
  title : String
  description : String
  category : String
  keywords : List String
deriving DecidableEq, Repr

/-- `SearchIndex` (indexer.ts): the two `Map`s become insertion-ordered
association lists. -/
structure SearchIndex where
  entries : List IndexedDoc
  keywordMap : List (String × List Nat)
  categoryMap : List (String × List Nat)
deriving DecidableEq, Repr

/-- JavaScript `Map.prototype.get` on the association-list model. -/
def mapGet {β : Type} (m : List (String × β)) (k : String) : Option β :=
  (m.find? (fun p => p.1 = k)).map (·.2)

/-- JavaScript `Map.prototype.set` on the association-list model: updating
an existing key keeps its position, a new key is appended. -/
def mapSet {β : Type} (m : List (String × β)) (k : String) (v : β) :
    List (String × β) :=
  if (m.find? (fun p => p.1 = k)).isSome then
    m.map (fun p => if p.1 = k then (k, v) else p)
  else m ++ [(k, v)]

/-- The stopword list of `extractKeywordsFromText`. -/
def stopWords : List String := ["and", "the", "for", "with", "api"]

/-- JavaScript `\w` (ASCII word character). -/
def isWordChar (c : Char) : Bool := c.isAlphanum || c = '_'

/-- `extractKeywordsFromText` (indexer.ts, lines 135-141): lowercase,
delete every character that is not a word character, whitespace or hyphen,
split on whitespace runs, keep tokens longer than 2 that are not
stopwords. -/
def extractKeywordsFromText (text : String) : List String :=
  ((splitWsJS ((text.data.map Char.toLower).filter
      (fun c => isWordChar c || isJsWs c || c = '-'))).map
        (fun l => (⟨l⟩ : String))).filter
    (fun w => w.length > 2 && !(stopWords.contains w))

/-- The parts of a WHATWG URL used by this repository.
Modelled collaborator: Node's `URL` class; the model is a simplified
parser for `scheme://host[:port]/path[?query][#frag]` URLs without
userinfo or percent-escapes, which covers every URL this code handles. -/
structure URLParts where
  protocol : String
  hostname : String
  pathname : String
deriving DecidableEq, Repr

/-- Split `l` at the first occurrence of `pat`, returning the pieces
before and after it. -/
def splitFirst (pat : List Char) : List Char → Option (List Char × List Char)
  | [] => if pat.isEmpty then some ([], []) else none
  | c :: cs =>
    if pat.isPrefixOf (c :: cs) then some ([], (c :: cs).drop pat.length)
    else match splitFirst pat cs with
      | some (a, b) => some (c :: a, b)
      | none => none

/-- Simplified `new URL(s)` (throwing becomes `none`). -/
def urlParse (s : String) : Option URLParts :=
  match splitFirst "://".data s.data with
  | none => none
  | some (scheme, rest) =>
    if scheme.isEmpty || !scheme.all Char.isAlpha then none
    else
      let hostport := rest.takeWhile (fun c => c ≠ '/' && c ≠ '?' && c ≠ '#')
      let afterHost := rest.drop hostport.length
      let hostname := (hostport.takeWhile (fun c => c ≠ ':')).map Char.toLower
      if hostname.isEmpty then none
      else
        let path := afterHost.takeWhile (fun c => c ≠ '?' && c ≠ '#')
        some { protocol := ⟨scheme.map Char.toLower ++ [':']⟩
               hostname := ⟨hostname⟩
               pathname := if path.isEmpty then "/" else ⟨path⟩ }

/-- The keyword pipeline of `extractKeywordsFromUrl` applied to a pathname
(indexer.ts, lines 112-124): separators, hyphens and underscores become
spaces, whitespace is collapsed and trimmed, then lowercase, split on the
single spaces and keep tokens longer than 2 (note: no punctuation strip
and no stopword filter, unlike the text pipeline). -/
def urlPathKeywords (pathname : String) : List String :=
  let path := jsTrimL (runRepl isJsWs ' '
    (((runRepl (fun c => c = '/') ' ' pathname.data).map
        (fun c => if c = '-' then ' ' else c)).map
      (fun c => if c = '_' then ' ' else c)))
  if path.isEmpty then []
  else
    (((path.map Char.toLower).splitOn ' ').map (fun l => (⟨l⟩ : String))).filter
      (fun w => w.length > 2)

/-- `extractKeywordsFromUrl` (indexer.ts, lines 109-128); a parse failure
is caught and yields `[]`. -/
def extractKeywordsFromUrl (url : String) : List String :=
  match urlParse url with
  | none => []
  | some parts => urlPathKeywords parts.pathname

/-- `buildKeywordMap` (indexer.ts, lines 174-187). -/
def buildKeywordMap (entries : List IndexedDoc) : List (String × List Nat) :=
  (entries.enum.foldl
    (fun m ei => ei.2.keywords.foldl
      (fun m kw => mapSet m kw ((mapGet m kw).getD [] ++ [ei.1])) m)
    ([] : List (String × List Nat)))

/-- Accumulation of relevance scores (the `scores` map of
`searchIndexInternal`): `scores.set(index, (scores.get(index) || 0) + 1)`.
A present key is updated in place (JavaScript `Map` keeps its position), a
new key is appended at the end — `Map` insertion order. -/
def bumpScore : List (Nat × Nat) → Nat → List (Nat × Nat)
  | [], i => [(i, 1)]
  | p :: t, i => if p.1 = i then (i, p.2 + 1) :: t else p :: bumpScore t i

/-- The score accumulator of `searchIndexInternal` (indexer.ts,
lines 218-227): for every extracted keyword, bump every entry on its
posting list. -/
def searchScores (idx : SearchIndex) (query : String) : List (Nat × Nat) :=
  (extractKeywordsFromText query).foldl
    (fun scores kw => ((mapGet idx.keywordMap kw).getD []).foldl bumpScore scores)
    []

instance : Inhabited IndexedDoc :=
  ⟨{ url := "", title := "", description := "", category := "", keywords := [] }⟩

/-- Stable insertion of `x` into a list already sorted by descending
score: `x` goes after every element whose score is at least `x.2`. -/
def insertByScore (x : Nat × Nat) : List (Nat × Nat) → List (Nat × Nat)
  | [] => [x]
  | y :: t => if x.2 ≤ y.2 then y :: insertByScore x t else x :: y :: t

/-- `sort((a, b) => b[1] - a[1])`: JavaScript's `Array.prototype.sort` is
stable (ES2019), and for this total transitive comparator the stable
descending sort is a uniquely determined function of the input, so the
stable insertion sort below computes exactly it. -/
def sortByScoreDesc (l : List (Nat × Nat)) : List (Nat × Nat) :=
  l.foldl (fun acc x => insertByScore x acc) []

/-- `searchIndexInternal` (indexer.ts, lines 212-236): sort the
accumulated `(entry-index, score)` pairs by descending score, keep the
first 10 (`slice(0, 10)`) and map back to entries. -/
def searchIndexInternal (idx : SearchIndex) (query : String) : List IndexedDoc :=
  if (extractKeywordsFromText query).isEmpty then []
  else
    ((sortByScoreDesc (searchScores idx query)).take 10).map
      (fun p => idx.entries.getD p.1 default)

/-- `search` (indexer.ts, lines 306-313); the nullable module-level
`_searchIndex` becomes an `Option`. -/
def searchIdx (idx : Option SearchIndex) (query : String) : List IndexedDoc :=
  match idx with
  | none => []
  | some i => searchIndexInternal i query

/-! ## `src/tools/search.ts` -/

/-- `SearchResult` (types.ts, as used by search.ts). -/
structure SearchResult where
  url : String
  title : String
  description : String
deriving DecidableEq, Repr

/-- The error taxonomy of `types.ts` (`ValidationError`, `NetworkError`,
`ScrapingError`, `ConversionError`, `SearchError`), carrying the message. -/
inductive TErr where
  | validation (msg : String)
  | network (msg : String)
  | scraping (msg : String)
  | conversion (msg : String)
  | searchFail (msg : String)
deriving DecidableEq, Repr

/-- `validateSearchQuery` (search.ts, lines 19-36): `none` means the query
passed, `some msg` models the thrown `ValidationError`. -/
def validateSearchQuery (query : String) : Option String :=
  if query = "" then some "Search query must be a non-empty string"
  else if (jsTrim query).length = 0 then some "Search query cannot be empty"
  else if (jsTrim query).length < 2 then
    some "Search query must be at least 2 characters long"
  else if (jsTrim query).length > 200 then
    some "Search query is too long (max 200 characters)"
  else none

/-- `getFallbackResults` (search.ts, lines 84-102). -/
def getFallbackResults : List SearchResult :=
  [ { url := "https://developer.tenable.com/reference"
      title := "Tenable API Documentation"
      description := "Browse all Tenable API documentation. Your search may be found in various API sections." }
  , { url := "https://developer.tenable.com/recipes"
      title := "Tenable Recipes"
      description := "Pre-built integration examples and automation scripts that may help with your query." }
  , { url := "https://developer.tenable.com/api-explorer"
      title := "API Explorer"
      description := "Interactive tool to explore Tenable APIs and test endpoints." } ]

/-- `searchDocs` (search.ts, lines 48-78): validation first (validation
errors are rethrown as-is), then the index lookup, then the non-empty
fallback.  The embedded pipeline is pure, so the `SearchError` wrapping
branch is unreachable here. -/
def searchDocs (idx : Option SearchIndex) (query : String) :
    Except TErr (List SearchResult) :=
  match validateSearchQuery query with
  | some msg => .error (.validation msg)
  | none =>
    let results := (searchIdx idx query).map
      (fun e => { url := e.url, title := e.title, description := e.description })
    if results.isEmpty then .ok getFallbackResults else .ok results

/-! ## Demonstration indexes (concrete instances of `buildIndex` output) -/

def demoA : IndexedDoc :=
  { url := "https://developer.tenable.com/reference/alpha-beta"
    title := "Alpha Beta", description := "d", category := "API References"
    keywords := ["alpha", "beta"] }

def demoB : IndexedDoc :=
  { url := "https://developer.tenable.com/reference/gamma"
    title := "Gamma", description := "d", category := "API References"
    keywords := ["gamma"] }

/-- A two-entry index exactly as `buildIndex` would assemble it. -/
def demoIdx : SearchIndex :=
  { entries := [demoA, demoB]
    keywordMap := buildKeywordMap [demoA, demoB]
    categoryMap := [] }

def scanA : IndexedDoc :=
  { url := "https://developer.tenable.com/reference/scans-assets"
    title := "Scans and Assets", description := "d", category := "API References"
    keywords := ["scan", "asset"] }

def scanB : IndexedDoc :=
  { url := "https://developer.tenable.com/reference/scans"
    title := "Scans", description := "d", category := "API References"
    keywords := ["scan"] }

/-- The index of the spec's ranking example: entry A with keywords
`scan, asset`, entry B with keyword `scan`. -/
def scanIdx : SearchIndex :=
  { entries := [scanA, scanB]
    keywordMap := buildKeywordMap [scanA, scanB]
    categoryMap := [] }

/-! ## Score-accumulator lemmas -/

/-- The score currently recorded for entry `i` (`scores.get(i) || 0`). -/
def scoreOf (s : List (Nat × Nat)) (i : Nat) : Nat :=
  ((s.find? (fun p => p.1 = i)).map (·.2)).getD 0

theorem scoreOf_nil (i : Nat) : scoreOf [] i = 0 := rfl

theorem scoreOf_bump_self (s : List (Nat × Nat)) (i : Nat) :
    scoreOf (bumpScore s i) i = scoreOf s i + 1 := by
  induction s with
  | nil => simp [bumpScore, scoreOf, List.find?]
  | cons p t ih =>
    by_cases h : p.1 = i
    · simp [bumpScore, h, scoreOf, List.find?]
    · simp [bumpScore, h, scoreOf, List.find?, decide_eq_true_eq] at ih ⊢
      exact ih

theorem scoreOf_bump_ne (s : List (Nat × Nat)) (i j : Nat) (hne : j ≠ i) :
    scoreOf (bumpScore s i) j = scoreOf s j := by
  induction s with
  | nil => simp [bumpScore, scoreOf, List.find?, Ne.symm hne]
  | cons p t ih =>
    by_cases h : p.1 = i
    · simp [bumpScore, h, scoreOf, List.find?, hne, Ne.symm hne]
    · by_cases hj : p.1 = j
      · simp [bumpScore, h, scoreOf, List.find?, hj, hne]
      · simp [bumpScore, h, scoreOf, List.find?, hj] at ih ⊢
        exact ih

theorem keys_bump_mem (s : List (Nat × Nat)) (i x : Nat)
    (hx : x ∈ (bumpScore s i).map Prod.fst) :
    x = i ∨ x ∈ s.map Prod.fst := by
  induction s with
  | nil => simp [bumpScore] at hx; simp [hx]
  | cons p t ih =>
    by_cases h : p.1 = i
    · simp [bumpScore, h] at hx
      rcases hx with hx | hx
      · exact .inl hx
      · exact .inr (by simp [hx])
    · simp [bumpScore, h] at hx
      rcases hx with hx | hx
      · exact .inr (by simp [hx])
      · rcases ih (by simpa using hx) with h1 | h1
        · exact .inl h1
        · exact .inr (by simp [h1])

theorem keysNodup_bump (s : List (Nat × Nat)) (i : Nat)
    (h : (s.map Prod.fst).Nodup) : ((bumpScore s i).map Prod.fst).Nodup := by
  induction s with
  | nil => simp [bumpScore]
  | cons p t ih =>
    rw [List.map_cons, List.nodup_cons] at h
    by_cases hp : p.1 = i
    · simp only [bumpScore, if_pos hp, List.map_cons, List.nodup_cons]
      exact ⟨hp ▸ h.1, h.2⟩
    · simp only [bumpScore, if_neg hp, List.map_cons, List.nodup_cons]
      refine ⟨fun hmem => ?_, ih h.2⟩
      rcases keys_bump_mem t i p.1 hmem with h1 | h1
      · exact hp h1
      · exact h.1 h1

theorem find?_eq_of_mem_keysNodup (s : List (Nat × Nat)) (p : Nat × Nat)
    (hp : p ∈ s) (h : (s.map Prod.fst).Nodup) :
    s.find? (fun q => q.1 = p.1) = some p := by
  induction s with
  | nil => cases hp
  | cons q t ih =>
    rw [List.map_cons, List.nodup_cons] at h
    rcases List.mem_cons.mp hp with rfl | hmem
    · simp [List.find?]
    · have hne : ¬q.1 = p.1 := by
        intro he
        exact h.1 (he ▸ List.mem_map_of_mem Prod.fst hmem)
      simp [List.find?, hne]
      exact ih hmem h.2

theorem scoreOf_foldl_bump (l : List Nat) (s : List (Nat × Nat)) (j : Nat) :
    scoreOf (l.foldl bumpScore s) j = scoreOf s j + l.count j := by
  induction l generalizing s with
  | nil => simp
  | cons i t ih =>
    rw [List.foldl_cons, ih]
    by_cases h : j = i
    · subst h
      rw [scoreOf_bump_self]
      simp [List.count_cons]
      omega
    · rw [scoreOf_bump_ne s i j h]
      simp [List.count_cons, h]

theorem keysNodup_foldl_bump (l : List Nat) (s : List (Nat × Nat))
    (h : (s.map Prod.fst).Nodup) :
    ((l.foldl bumpScore s).map Prod.fst).Nodup := by
  induction l generalizing s with
  | nil => exact h
  | cons i t ih => exact ih _ (keysNodup_bump s i h)

theorem scoreOf_searchScores_aux (ts : List String) (idx : SearchIndex)
    (s : List (Nat × Nat)) (j : Nat) :
    scoreOf (ts.foldl
        (fun scores kw => ((mapGet idx.keywordMap kw).getD []).foldl bumpScore scores) s) j
      = scoreOf s j
        + (ts.map (fun kw => ((mapGet idx.keywordMap kw).getD []).count j)).sum := by
  induction ts generalizing s with
  | nil => simp
  | cons kw t ih =>
    rw [List.foldl_cons, ih, scoreOf_foldl_bump]
    simp [Nat.add_assoc]

theorem keysNodup_searchScores (idx : SearchIndex) (q : String) :
    ((searchScores idx q).map Prod.fst).Nodup := by
  unfold searchScores
  generalize extractKeywordsFromText q = ts
  induction ts using List.reverseRecOn with
  | nil => simp
  | append_singleton t kw ih =>
    rw [List.foldl_append, List.foldl_cons, List.foldl_nil]
    exact keysNodup_foldl_bump _ _ ih

theorem mem_insertByScore (x z : Nat × Nat) (l : List (Nat × Nat))
    (h : z ∈ insertByScore x l) : z = x ∨ z ∈ l := by
  induction l with
  | nil => simp [insertByScore] at h; simp [h]
  | cons y t ih =>
    by_cases hc : x.2 ≤ y.2
    · simp only [insertByScore, if_pos hc, List.mem_cons] at h
      rcases h with rfl | h
      · exact .inr (by simp)
      · rcases ih h with h1 | h1
        · exact .inl h1
        · exact .inr (by simp [h1])
    · simp only [insertByScore, if_neg hc, List.mem_cons] at h
      rcases h with rfl | h
      · exact .inl rfl
      · exact .inr (by simpa using h)

theorem pairwise_insertByScore (x : Nat × Nat) (l : List (Nat × Nat))
    (h : List.Pairwise (fun a b => b.2 ≤ a.2) l) :
    List.Pairwise (fun a b => b.2 ≤ a.2) (insertByScore x l) := by
  induction l with
  | nil => simp [insertByScore]
  | cons y t ih =>
    rw [List.pairwise_cons] at h
    by_cases hc : x.2 ≤ y.2
    · rw [insertByScore, if_pos hc]
      refine List.pairwise_cons.mpr ⟨fun z hz => ?_, ih h.2⟩
      rcases mem_insertByScore x z t hz with rfl | h1
      · exact hc
      · exact h.1 z h1
    · rw [insertByScore, if_neg hc]
      refine List.pairwise_cons.mpr ⟨fun z hz => ?_, List.pairwise_cons.mpr h⟩
      rcases List.mem_cons.mp hz with rfl | h1
      · omega
      · exact le_trans (h.1 z h1) (by omega)

theorem pairwise_sortByScoreDesc (l : List (Nat × Nat)) :
    List.Pairwise (fun a b => b.2 ≤ a.2) (sortByScoreDesc l) := by
  unfold sortByScoreDesc
  generalize hacc : ([] : List (Nat × Nat)) = acc
  have h : List.Pairwise (fun a b : Nat × Nat => b.2 ≤ a.2) acc := by
    rw [← hacc]; exact List.Pairwise.nil
  clear hacc
  induction l generalizing acc with
  | nil => exact h
  | cons x t ih => exact ih _ (pairwise_insertByScore x acc h)

/-- C2, counterexample.  In the index `demoIdx` (entry 0 = `demoA` with
keywords `alpha, beta`; entry 1 = `demoB` with keyword `gamma`) the query
`"gamma gamma alpha beta"` gives entry 0 a count of 2 distinct matching
query tokens and entry 1 a count of 1, so the claimed ranking rule
(distinct-token score, descending, ties by entry order) would place
`demoA` strictly first; the code instead counts token occurrences
(`gamma` twice) and orders ties by score-map insertion order, returning
`demoB` first. -/
theorem C2_counterexample :
    searchIndexInternal demoIdx "gamma gamma alpha beta" = [demoB, demoA]
    ∧ (extractKeywordsFromText "gamma gamma alpha beta").dedup.countP
        (fun kw => ((mapGet demoIdx.keywordMap kw).getD []).contains 0) = 2
    ∧ (extractKeywordsFromText "gamma gamma alpha beta").dedup.countP
        (fun kw => ((mapGet demoIdx.keywordMap kw).getD []).contains 1) = 1
    ∧ [demoB, demoA] ≠ [demoA, demoB] :=
  ⟨by decide, by decide, by decide, by decide⟩

/-- C2, amended.  For every query against an initialized index, the score
accumulated for an entry equals the number of query-token *occurrences*
(with multiplicity, not distinct tokens) whose posting list contains that
entry, counted with the posting list's own multiplicity; results are
ordered by descending score with ties in score-accumulator insertion
order (stable sort), truncated to the top 10; and for an index with entry
A having keywords scan, asset and entry B having keywords scan, the query
"scan asset" still ranks A strictly above B. -/
theorem C2_search_amended :
    (∀ (idx : SearchIndex) (q : String) (p : Nat × Nat), p ∈ searchScores idx q →
      p.2 = ((extractKeywordsFromText q).map
        (fun kw => ((mapGet idx.keywordMap kw).getD []).count p.1)).sum)
    ∧ (∀ (idx : SearchIndex) (q : String),
        List.Pairwise (fun a b : Nat × Nat => b.2 ≤ a.2)
          (sortByScoreDesc (searchScores idx q))
        ∧ (searchIndexInternal idx q).length ≤ 10)
    ∧ searchIndexInternal scanIdx "scan asset" = [scanA, scanB]
    ∧ scanA ≠ scanB := by
  refine ⟨fun idx q p hp => ?_, fun idx q => ⟨pairwise_sortByScoreDesc _, ?_⟩,
    by decide, by decide⟩
  · have hn := keysNodup_searchScores idx q
    have hf := find?_eq_of_mem_keysNodup _ p hp hn
    have haux := scoreOf_searchScores_aux (extractKeywordsFromText q) idx [] p.1
    unfold searchScores at hf
    have hs : scoreOf ((extractKeywordsFromText q).foldl
        (fun scores kw => ((mapGet idx.keywordMap kw).getD []).foldl bumpScore scores)
        []) p.1 = p.2 := by
      rw [scoreOf, hf]; rfl
    rw [← hs, haux, scoreOf_nil, Nat.zero_add]
  · unfold searchIndexInternal
    split
    · simp
    · simp only [List.length_map]
      exact Nat.le_trans (List.length_take_le 10 _) (le_refl 10)

theorem C2_search_amended_witness :
    (1, 2) ∈ searchScores demoIdx "gamma gamma alpha beta"
    ∧ (1, 2).2 = ((extractKeywordsFromText "gamma gamma alpha beta").map
        (fun kw => ((mapGet demoIdx.keywordMap kw).getD []).count (1, 2).1)).sum :=
  ⟨by decide,
    C2_search_amended.1 demoIdx "gamma gamma alpha beta" (1, 2) (by decide)⟩

/-- C4: if the trimmed query is shorter than 2 or longer than 200
characters, `searchDocs` fails with a `ValidationError`, and the outcome
does not depend on the index at all (validation happens before the index
lookup, and the pure pipeline performs no network access). -/
theorem C4_query_validation (idx : Option SearchIndex) (query : String)
    (h : (jsTrim query).length < 2 ∨ 200 < (jsTrim query).length) :
    (∃ msg, searchDocs idx query = .error (.validation msg))
    ∧ searchDocs idx query = searchDocs none query := by
  have hv : ∃ msg, validateSearchQuery query = some msg := by
    unfold validateSearchQuery
    split_ifs with h1 h2 h3 h4
    · exact ⟨_, rfl⟩
    · exact ⟨_, rfl⟩
    · exact ⟨_, rfl⟩
    · exact ⟨_, rfl⟩
    · omega
  rcases hv with ⟨msg, hm⟩
  unfold searchDocs
  rw [hm]
  exact ⟨⟨msg, rfl⟩, rfl⟩

theorem C4_query_validation_witness :
    ((jsTrim "a").length < 2 ∨ 200 < (jsTrim "a").length)
    ∧ ((∃ msg, searchDocs (some demoIdx) "a" = .error (.validation msg))
      ∧ searchDocs (some demoIdx) "a" = searchDocs none "a") :=
  ⟨Or.inl (by decide), C4_query_validation (some demoIdx) "a" (Or.inl (by decide))⟩

/-- C8, counterexample: the URL-path keyword extractor does not apply the
stopword filter — the path `/api` yields the keyword `api`, which is on
the stopword list that the free-text extractor discards. -/
theorem C8_counterexample :
    extractKeywordsFromUrl "https://developer.tenable.com/api" = ["api"]
    ∧ "api" ∈ stopWords
    ∧ extractKeywordsFromText "api" = [] :=
  ⟨by decide, by decide, by decide⟩

/-- C8, amended.  The free-text extractor discards tokens of length at
most 2 and the stopwords and, the, for, with, api; the URL-path variant
(after replacing separators, hyphens and underscores with spaces)
discards only tokens of length at most 2 — it applies no stopword filter
and no punctuation stripping.  Both are total, with empty input yielding
the empty set. -/
theorem C8_keywords_amended :
    (∀ (t k : String), k ∈ extractKeywordsFromText t →
      2 < k.length ∧ k ∉ stopWords)
    ∧ (∀ (u k : String), k ∈ extractKeywordsFromUrl u → 2 < k.length)
    ∧ extractKeywordsFromText "" = []
    ∧ extractKeywordsFromUrl "" = [] := by
  refine ⟨fun t k hk => ?_, fun u k hk => ?_, by decide, by decide⟩
  · unfold extractKeywordsFromText at hk
    have hc := (List.mem_filter.mp hk).2
    simp only [gt_iff_lt, Bool.and_eq_true, decide_eq_true_eq,
      Bool.not_eq_true'] at hc
    refine ⟨hc.1, fun hmem => ?_⟩
    have : stopWords.contains k = true := List.elem_eq_true_of_mem hmem
    rw [this] at hc
    exact absurd hc.2 (by simp)
  · unfold extractKeywordsFromUrl at hk
    cases hu : urlParse u with
    | none => rw [hu] at hk; cases hk
    | some parts =>
      rw [hu] at hk
      unfold urlPathKeywords at hk
      by_cases hp : (jsTrimL (runRepl isJsWs ' '
          (((runRepl (fun c => c = '/') ' ' parts.pathname.data).map
              (fun c => if c = '-' then ' ' else c)).map
            (fun c => if c = '_' then ' ' else c)))).isEmpty
      · simp only [hp, if_true] at hk
        cases hk
      · simp only [hp, if_false, Bool.false_eq_true] at hk
        have hc := (List.mem_filter.mp hk).2
        simpa using hc

/-- C10 (implicit): whenever the query passes length validation, the
index-backed `searchDocs` never returns an empty list — if the index
lookup yields no results (in particular for an uninitialized or empty
index) the fixed three-entry fallback list (reference, recipes,
api-explorer) is returned instead. -/
theorem C10_nonempty_results (idx : Option SearchIndex) (query : String)
    (h : validateSearchQuery query = none) :
    ∃ rs, searchDocs idx query = .ok rs ∧ rs ≠ []
      ∧ (searchIdx idx query = [] → rs = getFallbackResults) := by
  unfold searchDocs
  rw [h]
  by_cases he : searchIdx idx query = []
  · refine ⟨getFallbackResults, ?_, by decide, fun _ => rfl⟩
    rw [he]
    rfl
  · refine ⟨(searchIdx idx query).map
      (fun e => ({ url := e.url, title := e.title, description := e.description } : SearchResult)),
      ?_, ?_, fun hc => absurd hc he⟩
    · have : ((searchIdx idx query).map
          (fun e => ({ url := e.url, title := e.title, description := e.description } : SearchResult))).isEmpty = false := by
        rw [List.isEmpty_eq_false_iff_exists_mem]
        rcases List.exists_mem_of_ne_nil _ he with ⟨x, hx⟩
        exact ⟨_, List.mem_map_of_mem _ hx⟩
      simp only [this, Bool.false_eq_true, if_false]
    · intro hnil
      rw [List.map_eq_nil_iff] at hnil
      exact he hnil

theorem C10_nonempty_results_witness :
    validateSearchQuery "vulnerability" = none
    ∧ ∃ rs, searchDocs none "vulnerability" = .ok rs ∧ rs ≠ []
      ∧ (searchIdx none "vulnerability" = [] → rs = getFallbackResults) :=
  ⟨by decide, C10_nonempty_results none "vulnerability" (by decide)⟩

/-! ## `src/utils/cache.ts` — the LRU cache -/

/-- `CacheEntry` (cache.ts). -/
structure CacheEntry (T : Type) where
  data : T
  timestamp : Nat
  hits : Nat
deriving DecidableEq, Repr

/-- `LRUCache` (cache.ts).  The JavaScript `Map` becomes an
insertion-ordered association list; `Date.now()` becomes an explicit
`now : Nat` argument on the operations that read the clock. -/
structure LRUCache (T : Type) where
  cache : List (String × CacheEntry T)
  maxSize : Nat
  ttl : Nat
  accessOrder : List String
deriving DecidableEq, Repr

/-- The constructor with explicit options.  JavaScript's
`options.maxSize || 100` coerces `0`/`undefined` to `100`, so the
capacity of a real cache is always at least 1. -/
def LRUCache.empty (T : Type) (maxSize ttl : Nat) : LRUCache T :=
  { cache := [], maxSize := maxSize, ttl := ttl, accessOrder := [] }

/-- `delete` (cache.ts, lines 199-206): remove the key from the map and
its first occurrence from the access-order list (`indexOf`/`splice`). -/
def LRUCache.deleteKey {T : Type} (c : LRUCache T) (k : String) :
    Bool × LRUCache T :=
  ((c.cache.find? (fun p => p.1 = k)).isSome,
    { c with cache := c.cache.eraseP (fun p => p.1 = k)
             accessOrder := c.accessOrder.eraseP (fun x => x = k) })

/-- `get` (cache.ts, lines 145-164): unknown key is absent; an entry past
its TTL is deleted and reported absent; otherwise the key moves to the
most-recently-used end, its hit counter increments, and the data is
returned. -/
def LRUCache.get {T : Type} (c : LRUCache T) (k : String) (now : Nat) :
    Option T × LRUCache T :=
  match c.cache.find? (fun p => p.1 = k) with
  | none => (none, c)
  | some p =>
    if c.ttl < now - p.2.timestamp then (none, (c.deleteKey k).2)
    else
      (some p.2.data,
        { c with
          accessOrder :=
            if c.accessOrder.contains k then
              c.accessOrder.eraseP (fun x => x = k) ++ [k]
            else c.accessOrder
          cache := c.cache.map (fun q =>
            if q.1 = k then (k, { q.2 with hits := q.2.hits + 1 }) else q) })

/-- The capacity check inside `set`: at capacity, `accessOrder.shift()`
pops the least-recently-used key and the map entry for it is deleted
(shifting an empty order is a no-op, as in the source). -/
def LRUCache.evictIfFull {T : Type} (c : LRUCache T) : LRUCache T :=
  if c.maxSize ≤ c.cache.length then
    match c.accessOrder with
    | [] => c
    | lru :: rest =>
      { c with cache := c.cache.eraseP (fun p => p.1 = lru)
               accessOrder := rest }
  else c

/-- `set` (cache.ts, lines 171-193): an existing key is deleted first;
at capacity the least-recently-used key (head of the access order) is
evicted from the map; the new entry is appended with a fresh timestamp
and zero hits. -/
def LRUCache.set {T : Type} (c : LRUCache T) (k : String) (v : T)
    (now : Nat) : LRUCache T :=
  let c2 := LRUCache.evictIfFull
    (if (c.cache.find? (fun p => p.1 = k)).isSome then (c.deleteKey k).2 else c)
  { c2 with cache := c2.cache ++ [(k, { data := v, timestamp := now, hits := 0 })]
            accessOrder := c2.accessOrder ++ [k] }

/-- `has` (cache.ts, lines 221-235): the same lazy-expiry check as `get`,
without touching the recency order or the hit counter (but an expired
entry is still deleted). -/
def LRUCache.hasKey {T : Type} (c : LRUCache T) (k : String) (now : Nat) :
    Bool × LRUCache T :=
  match c.cache.find? (fun p => p.1 = k) with
  | none => (false, c)
  | some p =>
    if c.ttl < now - p.2.timestamp then (false, (c.deleteKey k).2)
    else (true, c)

/-- `createCacheKey` (cache.ts, lines 297-304); every call site passes no
params, in which case the key is the URL itself. -/
def createCacheKey (url : String) : String := url

/-- Folding `set` over a list of key/value pairs at one timestamp. -/
def setAll {T : Type} (c : LRUCache T) (ps : List (String × T)) (now : Nat) :
    LRUCache T :=
  ps.foldl (fun c p => c.set p.1 p.2 now) c

/-- The map contents after inserting `ps` at time `t0`. -/
def entriesFor {T : Type} (ps : List (String × T)) (t0 : Nat) :
    List (String × CacheEntry T) :=
  ps.map (fun p => (p.1, { data := p.2, timestamp := t0, hits := 0 }))

theorem find?_none_of_not_mem_keys {T : Type} (l : List (String × CacheEntry T))
    (k : String) (h : k ∉ l.map Prod.fst) :
    l.find? (fun p => p.1 = k) = none := by
  rw [List.find?_eq_none]
  intro x hx
  simp only [decide_eq_true_eq]
  intro he
  exact h (he ▸ List.mem_map_of_mem Prod.fst hx)

theorem not_mem_keys_of_find?_none {T : Type} (l : List (String × CacheEntry T))
    (k : String) (h : l.find? (fun p => p.1 = k) = none) :
    k ∉ l.map Prod.fst := by
  intro hk
  rcases List.mem_map.mp hk with ⟨p, hp, he⟩
  have hs : (l.find? (fun p => p.1 = k)).isSome = true :=
    List.find?_isSome.mpr ⟨p, hp, by simp [he]⟩
  rw [h] at hs
  cases hs

theorem find?_entriesFor_of_mem {T : Type} (ps : List (String × T)) (t0 : Nat)
    (p : String × T) (hp : p ∈ ps) (hnd : (ps.map Prod.fst).Nodup) :
    (entriesFor ps t0).find? (fun q => q.1 = p.1)
      = some (p.1, { data := p.2, timestamp := t0, hits := 0 }) := by
  induction ps with
  | nil => cases hp
  | cons q t ih =>
    rw [List.map_cons, List.nodup_cons] at hnd
    rcases List.mem_cons.mp hp with rfl | hmem
    · simp [entriesFor, List.find?]
    · have hne : ¬q.1 = p.1 := by
        intro he
        exact hnd.1 (he ▸ List.mem_map_of_mem Prod.fst hmem)
      simp only [entriesFor, List.map_cons, List.find?, hne, decide_eq_false,
        Bool.false_eq_true]
      exact ih hmem hnd.2

theorem nodup_append_disjoint {T : Type} (a b : List T) (h : (a ++ b).Nodup)
    (x : T) (hxa : x ∈ b) : x ∉ a := by
  intro hx
  rcases List.nodup_append.mp h with ⟨-, -, hd⟩
  exact hd hx hxa

theorem setAll_fill {T : Type} (maxSize ttl t0 : Nat) (ps pre : List (String × T))
    (hnd : ((pre ++ ps).map Prod.fst).Nodup)
    (hlen : pre.length + ps.length ≤ maxSize) :
    setAll ⟨entriesFor pre t0, maxSize, ttl, pre.map Prod.fst⟩ ps t0
      = ⟨entriesFor (pre ++ ps) t0, maxSize, ttl, (pre ++ ps).map Prod.fst⟩ := by
  induction ps generalizing pre with
  | nil => simp [setAll]
  | cons p rest ih =>
    have hfresh : p.1 ∉ pre.map Prod.fst := by
      have := nodup_append_disjoint (pre.map Prod.fst) ((p :: rest).map Prod.fst)
        (by rw [← List.map_append]; exact hnd) p.1 (by simp)
      exact this
    have h1 : (entriesFor pre t0).find? (fun q => q.1 = p.1) = none := by
      apply find?_none_of_not_mem_keys
      simpa [entriesFor] using hfresh
    have hlt : ¬(maxSize ≤ (entriesFor pre t0).length) := by
      simp only [entriesFor, List.length_map]
      simp only [List.length_cons] at hlen
      omega
    have hstep : (⟨entriesFor pre t0, maxSize, ttl, pre.map Prod.fst⟩ :
        LRUCache T).set p.1 p.2 t0
        = ⟨entriesFor (pre ++ [p]) t0, maxSize, ttl, (pre ++ [p]).map Prod.fst⟩ := by
      simp only [LRUCache.set, h1, Option.isSome_none, Bool.false_eq_true, if_false,
        LRUCache.evictIfFull]
      rw [if_neg hlt]
      simp [entriesFor]
    rw [setAll, List.foldl_cons, show ((⟨entriesFor pre t0, maxSize, ttl,
      pre.map Prod.fst⟩ : LRUCache T).set p.1 p.2 t0) = _ from hstep, ← setAll]
    rw [ih (pre ++ [p]) (by simpa using hnd)
      (by simp only [List.length_cons] at hlen
          simp only [List.length_append, List.length_cons, List.length_nil]
          omega)]
    simp

theorem keys_eraseP_not_mem {T : Type} (l : List (String × CacheEntry T))
    (k : String) (hnd : (l.map Prod.fst).Nodup) :
    k ∉ (l.eraseP (fun p => p.1 = k)).map Prod.fst := by
  induction l with
  | nil => simp
  | cons q t ih =>
    rw [List.map_cons, List.nodup_cons] at hnd
    by_cases hq : q.1 = k
    · rw [List.eraseP_cons_of_pos (by simp [hq])]
      exact fun hm => hnd.1 (hq ▸ hm)
    · rw [List.eraseP_cons_of_neg (by simp [hq]), List.map_cons]
      intro hm
      rcases List.mem_cons.mp hm with he | hm2
      · exact hq he.symm
      · exact ih hnd.2 hm2

theorem eraseP_self_not_mem (l : List String) (k : String) (hnd : l.Nodup) :
    k ∉ l.eraseP (fun x => x = k) := by
  induction l with
  | nil => simp
  | cons q t ih =>
    rw [List.nodup_cons] at hnd
    by_cases hq : q = k
    · rw [List.eraseP_cons_of_pos (by simp [hq])]
      exact fun hm => hnd.1 (hq ▸ hm)
    · rw [List.eraseP_cons_of_neg (by simp [hq])]
      intro hm
      rcases List.mem_cons.mp hm with he | hm2
      · exact hq he.symm
      · exact ih hnd.2 hm2

theorem evictIfFull_not_mem {T : Type} (c : LRUCache T) (k : String)
    (h1 : k ∉ c.cache.map Prod.fst) (h2 : k ∉ c.accessOrder) :
    k ∉ (c.evictIfFull).cache.map Prod.fst ∧ k ∉ (c.evictIfFull).accessOrder := by
  unfold LRUCache.evictIfFull
  split
  · split
    · exact ⟨h1, h2⟩
    · rename_i lru rest hacc
      refine ⟨fun hm => h1 ?_, fun hm => h2 ?_⟩
      · exact List.Sublist.mem hm ((List.eraseP_sublist c.cache).map Prod.fst)
      · rw [hacc]
        exact List.mem_cons_of_mem lru hm
  · exact ⟨h1, h2⟩

theorem set_spec {T : Type} (c : LRUCache T) (k : String) (v : T) (now : Nat)
    (hnd1 : (c.cache.map Prod.fst).Nodup) (hnd2 : c.accessOrder.Nodup)
    (hcons : ∀ x, x ∈ c.accessOrder → x ∈ c.cache.map Prod.fst) :
    (c.set k v now).cache.find? (fun q => q.1 = k)
        = some (k, { data := v, timestamp := now, hits := 0 })
    ∧ ((c.set k v now).cache.map Prod.fst).count k = 1
    ∧ (c.set k v now).accessOrder.getLast? = some k
    ∧ (c.set k v now).accessOrder.count k = 1 := by
  have hc1 : k ∉ (if (c.cache.find? (fun p => p.1 = k)).isSome
      then (c.deleteKey k).2 else c).cache.map Prod.fst
      ∧ k ∉ (if (c.cache.find? (fun p => p.1 = k)).isSome
      then (c.deleteKey k).2 else c).accessOrder := by
    split
    · exact ⟨keys_eraseP_not_mem c.cache k hnd1,
        eraseP_self_not_mem c.accessOrder k hnd2⟩
    · rename_i hfs
      have hnone : c.cache.find? (fun p => p.1 = k) = none := by
        cases hfe : c.cache.find? (fun p => p.1 = k) with
        | none => rfl
        | some p => rw [hfe] at hfs; simp at hfs
      have hnk := not_mem_keys_of_find?_none c.cache k hnone
      exact ⟨hnk, fun hm => hnk (hcons k hm)⟩
  obtain ⟨h1, h2⟩ := evictIfFull_not_mem _ k hc1.1 hc1.2
  simp only [LRUCache.set]
  refine ⟨?_, ?_, ?_, ?_⟩
  · rw [List.find?_append, find?_none_of_not_mem_keys _ k h1]
    simp [List.find?]
  · rw [List.map_append, List.count_append]
    simp only [List.map_cons, List.map_nil]
    rw [List.count_eq_zero.mpr h1]
    simp [List.count_cons]
  · exact List.getLast?_concat _
  · rw [List.count_append, List.count_eq_zero.mpr h2]
    simp [List.count_cons]

theorem setAll_overflow {T : Type} (maxSize ttl t0 : Nat) (p₀ last : String × T)
    (init : List (String × T))
    (hlen : init.length + 1 = maxSize)
    (hnd : ((p₀ :: (init ++ [last])).map Prod.fst).Nodup) :
    setAll (LRUCache.empty T maxSize ttl) (p₀ :: (init ++ [last])) t0
      = ⟨entriesFor (init ++ [last]) t0, maxSize, ttl,
         (init ++ [last]).map Prod.fst⟩ := by
  have hres : p₀ :: (init ++ [last]) = (p₀ :: init) ++ [last] := by simp
  rw [hres, setAll, List.foldl_append]
  have hndfront : ((([] : List (String × T)) ++ (p₀ :: init)).map Prod.fst).Nodup := by
    simp only [List.nil_append]
    exact List.Nodup.sublist
      ((((List.sublist_append_left init [last]).cons₂ p₀)).map Prod.fst) hnd
  have hfill := setAll_fill maxSize ttl t0 (p₀ :: init) [] hndfront
    (by simp only [List.length_nil, List.length_cons]; omega)
  have hempty : LRUCache.empty T maxSize ttl
      = ⟨entriesFor ([] : List (String × T)) t0, maxSize, ttl,
         ([] : List (String × T)).map Prod.fst⟩ := rfl
  rw [show List.foldl (fun c p => LRUCache.set c p.1 p.2 t0)
      (LRUCache.empty T maxSize ttl) (p₀ :: init)
      = setAll (LRUCache.empty T maxSize ttl) (p₀ :: init) t0 from rfl]
  rw [hempty, hfill]
  simp only [List.nil_append]
  rw [show List.foldl (fun c p => LRUCache.set c p.1 p.2 t0)
      (⟨entriesFor (p₀ :: init) t0, maxSize, ttl, (p₀ :: init).map Prod.fst⟩ :
        LRUCache T) [last]
      = (⟨entriesFor (p₀ :: init) t0, maxSize, ttl, (p₀ :: init).map Prod.fst⟩ :
        LRUCache T).set last.1 last.2 t0 from rfl]
  have hkeys : last.1 ∉ (p₀ :: init).map Prod.fst := by
    refine nodup_append_disjoint ((p₀ :: init).map Prod.fst)
      ([last].map Prod.fst) ?_ last.1 (by simp)
    rw [← List.map_append]
    exact hnd
  have hfind : (entriesFor (p₀ :: init) t0).find? (fun q => q.1 = last.1) = none :=
    find?_none_of_not_mem_keys _ _ (by simpa [entriesFor] using hkeys)
  have hfull : maxSize ≤ (entriesFor (p₀ :: init) t0).length := by
    simp only [entriesFor, List.length_map, List.length_cons]
    omega
  simp only [LRUCache.set, hfind, Option.isSome_none, Bool.false_eq_true, if_false,
    LRUCache.evictIfFull]
  rw [if_pos hfull]
  simp only [entriesFor, List.map_cons]
  rw [List.eraseP_cons_of_pos (by simp)]
  simp [List.map_append]

/-- C3: starting from an empty cache of capacity `maxSize ≥ 1` (the
constructor guarantees a positive capacity), after `maxSize + 1` distinct
keys are inserted with no intervening gets, a `get` of the first-inserted
key returns absent while each of the other `maxSize` keys still returns
the value that was set (within the TTL window); moreover a `set` of an
existing key removes it first, so the re-set key sits at the
most-recently-used end exactly once, with a fresh timestamp and zero
hits. -/
theorem C3_lru_eviction (T : Type) (p₀ : String × T) (rest : List (String × T))
    (maxSize ttl t0 t1 : Nat) (c' : LRUCache T) (k : String) (v : T) (now' : Nat)
    (hms : 1 ≤ maxSize) (hlen : rest.length = maxSize)
    (hnd : ((p₀ :: rest).map Prod.fst).Nodup) (httl : t1 - t0 ≤ ttl)
    (hnd1 : (c'.cache.map Prod.fst).Nodup) (hnd2 : c'.accessOrder.Nodup)
    (hcons : ∀ x, x ∈ c'.accessOrder → x ∈ c'.cache.map Prod.fst) :
    (((setAll (LRUCache.empty T maxSize ttl) (p₀ :: rest) t0).get p₀.1 t1).fst = none
      ∧ ∀ p ∈ rest,
        ((setAll (LRUCache.empty T maxSize ttl) (p₀ :: rest) t0).get p.1 t1).fst
          = some p.2)
    ∧ ((c'.set k v now').cache.find? (fun q => q.1 = k)
          = some (k, { data := v, timestamp := now', hits := 0 })
        ∧ ((c'.set k v now').cache.map Prod.fst).count k = 1
        ∧ (c'.set k v now').accessOrder.getLast? = some k
        ∧ (c'.set k v now').accessOrder.count k = 1) := by
  refine ⟨?_, set_spec c' k v now' hnd1 hnd2 hcons⟩
  obtain ⟨init, last, rfl⟩ : ∃ init last, rest = init ++ [last] := by
    rcases List.eq_nil_or_concat rest with rfl | ⟨L, b, hL⟩
    · exfalso
      rw [List.length_nil] at hlen
      omega
    · exact ⟨L, b, by rw [hL, List.concat_eq_append]⟩
  have hlen1 : init.length + 1 = maxSize := by simpa using hlen
  rw [setAll_overflow maxSize ttl t0 p₀ last init hlen1 hnd]
  have hndrest : ((init ++ [last]).map Prod.fst).Nodup := by
    rw [List.map_cons, List.nodup_cons] at hnd
    exact hnd.2
  constructor
  · have hnp : p₀.1 ∉ (init ++ [last]).map Prod.fst := by
      rw [List.map_cons, List.nodup_cons] at hnd
      exact hnd.1
    have hfind : (entriesFor (init ++ [last]) t0).find?
        (fun q => q.1 = p₀.1) = none :=
      find?_none_of_not_mem_keys _ _ (by simpa [entriesFor] using hnp)
    simp only [LRUCache.get, hfind]
  · intro p hp
    have hfind := find?_entriesFor_of_mem (init ++ [last]) t0 p hp hndrest
    simp only [LRUCache.get, hfind]
    rw [if_neg (Nat.not_lt.mpr httl)]

theorem C3_lru_eviction_witness :
    (1 ≤ 2 ∧ ([("k1", 1), ("k2", 2)] : List (String × Nat)).length = 2
      ∧ (((("k0", 0) : String × Nat) :: [("k1", 1), ("k2", 2)]).map Prod.fst).Nodup
      ∧ 5 - 0 ≤ 10)
    ∧ ((setAll (LRUCache.empty Nat 2 10)
        ((("k0", 0) : String × Nat) :: [("k1", 1), ("k2", 2)]) 0).get "k0" 5).fst
      = none :=
  ⟨⟨by decide, by decide, by decide, by decide⟩,
    (C3_lru_eviction Nat ("k0", 0) [("k1", 1), ("k2", 2)] 2 10 0 5
      (LRUCache.empty Nat 2 10) "a" 7 3 (by decide) (by decide) (by decide)
      (by decide) (by decide) (by decide)
      (fun x hx => by simp [LRUCache.empty] at hx)).1.1⟩

/-- C9: a `get` performed when `now - createdAt > ttl` returns absent and
deletes the entry, after which `has` of the same key is false; and `get`
never returns a value from an entry whose TTL has elapsed — a returned
value always comes from an entry with `now - createdAt ≤ ttl`. -/
theorem C9_ttl_expiry (T : Type) (c : LRUCache T) (k : String) (now : Nat)
    (hnd : (c.cache.map Prod.fst).Nodup) :
    (∀ e, c.cache.find? (fun p => p.1 = k) = some e →
      c.ttl < now - e.2.timestamp →
      (c.get k now).fst = none
        ∧ ((c.get k now).snd.hasKey k now).fst = false)
    ∧ (∀ v, (c.get k now).fst = some v →
      ∃ e, c.cache.find? (fun p => p.1 = k) = some e
        ∧ now - e.2.timestamp ≤ c.ttl ∧ v = e.2.data) := by
  constructor
  · intro e hf hexp
    refine ⟨?_, ?_⟩
    · simp only [LRUCache.get, hf, if_pos hexp]
    · simp only [LRUCache.get, hf, if_pos hexp, LRUCache.hasKey,
        LRUCache.deleteKey]
      rw [find?_none_of_not_mem_keys _ _ (keys_eraseP_not_mem c.cache k hnd)]
  · intro v hv
    cases hfe : c.cache.find? (fun p => p.1 = k) with
    | none =>
      simp only [LRUCache.get, hfe] at hv
      cases hv
    | some e =>
      simp only [LRUCache.get, hfe] at hv
      by_cases hexp : c.ttl < now - e.2.timestamp
      · rw [if_pos hexp] at hv
        cases hv
      · rw [if_neg hexp] at hv
        exact ⟨e, rfl, Nat.not_lt.mp hexp, (Option.some.inj hv).symm⟩

theorem C9_ttl_expiry_witness :
    ((⟨[("k", ⟨41, 0, 0⟩)], 100, 10, ["k"]⟩ : LRUCache Nat).cache.map
        Prod.fst).Nodup
    ∧ (((⟨[("k", ⟨41, 0, 0⟩)], 100, 10, ["k"]⟩ : LRUCache Nat).get "k" 20).fst
        = none
      ∧ ((((⟨[("k", ⟨41, 0, 0⟩)], 100, 10, ["k"]⟩ :
          LRUCache Nat).get "k" 20).snd.hasKey "k" 20).fst = false)) :=
  ⟨by decide,
    (C9_ttl_expiry Nat ⟨[("k", ⟨41, 0, 0⟩)], 100, 10, ["k"]⟩ "k" 20
      (by decide)).1 ("k", ⟨41, 0, 0⟩) (by decide) (by decide)⟩

/-! ## `src/utils/converter.ts` — `cleanMarkdown` -/

/-- `replace(/\n{3,}/g, '\n\n')`: `k` counts the newlines of the current
run already seen; from the third one on, the newline is dropped, so every
maximal run of `n ≥ 3` newlines is emitted as exactly two. -/
def collapseNlAux : Nat → List Char → List Char
  | _, [] => []
  | k, c :: cs =>
    if c = '\n' then
      if 2 ≤ k then collapseNlAux (k + 1) cs
      else '\n' :: collapseNlAux (k + 1) cs
    else c :: collapseNlAux 0 cs

def collapse3 (l : List Char) : List Char := collapseNlAux 0 l

def isSpTab (c : Char) : Bool := c = ' ' || c = '\t'

/-- `replace(/[ \t]+$/gm, '')`, scanning the reversed string: the flag is
true while the position is just before a line end (string end or `\n`),
where spaces and tabs are dropped. -/
def stripRevAux : Bool → List Char → List Char
  | _, [] => []
  | b, c :: cs =>
    if c = '\n' then '\n' :: stripRevAux true cs
    else if b && isSpTab c then stripRevAux true cs
    else c :: stripRevAux false cs

/-- `replace(/[ \t]+$/gm, '')`: delete trailing spaces/tabs of every
line. -/
def stripTrailWs (l : List Char) : List Char := (stripRevAux true l.reverse).reverse

/-- `replace(/^\n+|\n+$/g, '')`: delete the leading and trailing newline
runs. -/
def stripEdgeNl (l : List Char) : List Char :=
  (l.dropWhile (fun c => c = '\n')).rdropWhile (fun c => c = '\n')

/-- `cleanMarkdown` (converter.ts, lines 221-227): collapse newline runs
of three or more to two, strip trailing whitespace from every line,
strip leading/trailing newlines, then `trim()`. -/
def cleanMarkdownL (l : List Char) : List Char :=
  jsTrimL (stripEdgeNl (stripTrailWs (collapse3 l)))

def cleanMarkdown (s : String) : String := ⟨cleanMarkdownL s.data⟩

/-! ## `src/tools/read.ts` -/

/-- `HTMLContent` (types.ts): the fetcher's result. -/
structure HTMLContent where
  html : String
  url : String
  statusCode : Nat
deriving DecidableEq, Repr

/-- `ReadPageOutput` (types.ts). -/
structure ReadPageOutput where
  url : String
  title : String
  content : String
  wordCount : Nat
deriving DecidableEq, Repr

/-- `ALLOWED_DOMAINS` (read.ts, lines 33-36). -/
def allowedDomains : List String := ["developer.tenable.com", "tenable.com"]

/-- The domain test of `validateUrl`: the host equals an allow-listed
domain or ends in `"." ++ domain` (i.e. is a subdomain of it). -/
def isAllowedDomain (domain : String) : Bool :=
  allowedDomains.any (fun d => domain = d || ("." ++ d).data.isSuffixOf domain.data)

/-- `validateUrl` (read.ts, lines 51-86): `none` means the URL passed,
`some msg` models the thrown `ValidationError`. -/
def validateUrl (url : String) : Option String :=
  if url = "" then some "URL must be a non-empty string"
  else if (jsTrim url).length = 0 then some "URL cannot be empty"
  else
    match urlParse (jsTrim url) with
    | none => some "Invalid URL format"
    | some parsed =>
      if parsed.protocol ≠ "https:" && parsed.protocol ≠ "http:" then
        some "URL must use HTTP or HTTPS protocol"
      else if !isAllowedDomain parsed.hostname then
        some ("URL domain \"" ++ parsed.hostname
          ++ "\" is not allowed. Only Tenable documentation domains are permitted: developer.tenable.com, tenable.com")
      else none

/-- The note prepended to the reference-page fallback
(read.ts, line 354). -/
def fallbackNote (url : String) : String :=
  "\n> **Note**: The requested page (" ++ url
    ++ ") was not found. Below is the main API reference page. Please search for the specific endpoint or feature you\x27re looking for.\n"

/-- The synthesized static guidance document (read.ts, lines 369-393). -/
def notFoundContent (url : String) : String :=
  "# Page Not Found\n\nThe requested page could not be found: " ++ url
    ++ "\n\n## Suggested Actions:\n\n1. **Browse the API Reference**: Visit [https://developer.tenable.com/reference](https://developer.tenable.com/reference) to find available endpoints\n2. **Use the Search**: Use the `search_docs` tool to find relevant documentation\n3. **Try API Explorer**: Visit [https://developer.tenable.com/api-explorer](https://developer.tenable.com/api-explorer) for interactive API exploration\n4. **Check Recipes**: Visit [https://developer.tenable.com/recipes](https://developer.tenable.com/recipes) for integration examples\n\n## Common Endpoints:\n\n- **Users**: `/users` - Manage user accounts\n- **Scans**: `/scans` - Launch and manage vulnerability scans\n- **Assets**: `/assets` - Manage asset data\n- **Policies**: `/policies` - Configure scan policies\n- **Targets**: `/target-groups` - Manage scan targets\n\nIf you believe this is an error, please contact Tenable support."

def notFoundDoc (url : String) : ReadPageOutput :=
  { url := url, title := "Page Not Found", content := notFoundContent url
    wordCount := 0 }

/-- `handle404Fallback` (read.ts, lines 335-397).  External collaborators
appear as function parameters: `fetch` models `downloadHTML` (an
`Except.error` is a thrown `NetworkError`), `conv` models
`htmlToMarkdownWithStats` (turndown), `exTitle` models `extractTitle` and
`cleanCB` models the string-level `cleanHTMLPreservingCodeBlocks`.
A URL-parse failure is caught and yields `none`. -/
def handle404Fallback (fetch : String → Except String HTMLContent)
    (conv : String → String × Nat) (exTitle : String → Option String)
    (cleanCB : String → String) (url : String) : Option ReadPageOutput :=
  match urlParse url with
  | none => none
  | some parsed =>
    let pathParts := (parsed.pathname.data.splitOn '/').filter
      (fun part => part.length > 0)
    if pathParts.head? = some "reference".data then
      match fetch "https://developer.tenable.com/reference" with
      | .ok h =>
        if h.statusCode = 200 then
          let md := conv (cleanCB h.html)
          some { url := "https://developer.tenable.com/reference"
                 title := (exTitle h.html).getD "Tenable API Reference"
                 content := fallbackNote url ++ cleanMarkdown md.1
                 wordCount := md.2 }
        else some (notFoundDoc url)
      | .error _ => some (notFoundDoc url)
    else some (notFoundDoc url)

/-- `readPage` (read.ts, lines 107-185): validate, consult the cache,
fetch, run the 404 fallback, otherwise clean/convert and cache the
result.  The cache is threaded explicitly; `now` is the clock. -/
def readPage (fetch : String → Except String HTMLContent)
    (conv : String → String × Nat) (exTitle : String → Option String)
    (cleanCB : String → String) (cache : LRUCache ReadPageOutput)
    (now : Nat) (url : String) :
    Except TErr ReadPageOutput × LRUCache ReadPageOutput :=
  match validateUrl url with
  | some msg => (.error (.validation msg), cache)
  | none =>
    let u := jsTrim url
    let key := createCacheKey u
    match cache.get key now with
    | (some cached, cache1) => (.ok cached, cache1)
    | (none, cache1) =>
      match fetch u with
      | .error msg => (.error (.network msg), cache1)
      | .ok htmlContent =>
        if htmlContent.statusCode = 404 then
          match handle404Fallback fetch conv exTitle cleanCB u with
          | some fb => (.ok fb, cache1.set key fb now)
          | none =>
            (.error (.network "Failed to download page: HTTP 404"), cache1)
        else if 400 ≤ htmlContent.statusCode then
          (.error (.network ("Failed to download page: HTTP "
            ++ toString htmlContent.statusCode)), cache1)
        else
          let md := conv (cleanCB htmlContent.html)
          let result : ReadPageOutput :=
            { url := htmlContent.url
              title := (exTitle htmlContent.html).getD "Untitled Document"
              content := cleanMarkdown md.1
              wordCount := md.2 }
          (.ok result, cache1.set key result now)

theorem occursIn_append_self (pat a b : List Char) :
    occursIn pat (a ++ (pat ++ b)) = true := by
  induction a with
  | nil =>
    rw [List.nil_append]
    cases pat with
    | nil =>
      cases b with
      | nil => rfl
      | cons c cs => simp [occursIn]
    | cons p ps =>
      rw [List.cons_append, occursIn]
      have : (p :: ps).isPrefixOf ((p :: ps) ++ b) = true :=
        List.isPrefixOf_iff_prefix.mpr (List.prefix_append _ _)
      rw [List.cons_append] at this
      rw [this, Bool.true_or]
  | cons c a' ih =>
    rw [List.cons_append, occursIn, ih, Bool.or_true]

set_option maxRecDepth 8000 in
theorem occursIn_fallbackNote (u rest : String) :
    occursIn u.data (fallbackNote u ++ rest).data = true := by
  simp only [fallbackNote, String.data_append, List.append_assoc]
  exact occursIn_append_self u.data _ _

set_option maxRecDepth 8000 in
theorem occursIn_notFoundContent (u : String) :
    occursIn u.data (notFoundContent u).data = true := by
  simp only [notFoundContent, String.data_append, List.append_assoc]
  exact occursIn_append_self u.data _ _

theorem validateUrl_none_spec (url : String) (h : validateUrl url = none) :
    ∃ p, urlParse (jsTrim url) = some p ∧ isAllowedDomain p.hostname = true := by
  unfold validateUrl at h
  split_ifs at h
  cases hp : urlParse (jsTrim url) with
  | none =>
    simp only [hp] at h
    exact absurd h (by simp)
  | some parsed =>
    simp only [hp] at h
    split_ifs at h with h3 h4
    refine ⟨parsed, rfl, ?_⟩
    cases hd : isAllowedDomain parsed.hostname with
    | false => rw [hd] at h4; simp at h4
    | true => rfl

/-- C6: a URL whose host is neither an allow-listed domain nor a
subdomain of one makes `readPage` fail with a `ValidationError`, and the
outcome is identical for every fetcher, converter, cache and clock —
validation rejects the URL before any fetch or cache access happens. -/
theorem C6_domain_whitelist
    (fetch₁ fetch₂ : String → Except String HTMLContent)
    (conv₁ conv₂ : String → String × Nat)
    (exTitle₁ exTitle₂ : String → Option String)
    (cleanCB₁ cleanCB₂ : String → String)
    (cache₁ cache₂ : LRUCache ReadPageOutput) (now₁ now₂ : Nat)
    (url : String) (u : URLParts)
    (hparse : urlParse (jsTrim url) = some u)
    (hdom : isAllowedDomain u.hostname = false) :
    (∃ msg, (readPage fetch₁ conv₁ exTitle₁ cleanCB₁ cache₁ now₁ url).fst
        = .error (.validation msg))
    ∧ (readPage fetch₁ conv₁ exTitle₁ cleanCB₁ cache₁ now₁ url).fst
      = (readPage fetch₂ conv₂ exTitle₂ cleanCB₂ cache₂ now₂ url).fst := by
  have hval : ∃ msg, validateUrl url = some msg := by
    unfold validateUrl
    split_ifs with h1 h2
    · exact ⟨_, rfl⟩
    · exact ⟨_, rfl⟩
    · simp only [hparse]
      split_ifs with h3 h4
      · exact ⟨_, rfl⟩
      · exact ⟨_, rfl⟩
      · exact absurd (by rw [hdom]; rfl) h4
  rcases hval with ⟨msg, hm⟩
  unfold readPage
  rw [hm]
  exact ⟨⟨msg, rfl⟩, rfl⟩

theorem C6_domain_whitelist_witness :
    (urlParse (jsTrim "https://example.com/x")
        = some { protocol := "https:", hostname := "example.com", pathname := "/x" }
      ∧ isAllowedDomain "example.com" = false)
    ∧ ((∃ msg, (readPage (fun _ => .error "down") (fun _ => ("", 0))
          (fun _ => none) (fun s => s) (LRUCache.empty _ 100 10) 0
          "https://example.com/x").fst = .error (.validation msg))
      ∧ (readPage (fun _ => .error "down") (fun _ => ("", 0)) (fun _ => none)
          (fun s => s) (LRUCache.empty _ 100 10) 0 "https://example.com/x").fst
        = (readPage (fun _ => .ok ⟨"", "u", 200⟩) (fun _ => ("md", 2))
          (fun _ => some "t") (fun s => s) (LRUCache.empty _ 100 10) 7
          "https://example.com/x").fst) :=
  ⟨⟨by decide, by decide⟩,
    C6_domain_whitelist (fun _ => .error "down") (fun _ => .ok ⟨"", "u", 200⟩)
      (fun _ => ("", 0)) (fun _ => ("md", 2)) (fun _ => none) (fun _ => some "t")
      (fun s => s) (fun s => s) (LRUCache.empty _ 100 10) (LRUCache.empty _ 100 10)
      0 7 "https://example.com/x"
      { protocol := "https:", hostname := "example.com", pathname := "/x" }
      (by decide) (by decide)⟩

/-- C5: on an allow-listed URL whose fetch returns HTTP 404 (and that is
not already cached), `readPage` returns a non-error fallback document —
either the root reference page with a notice, or the synthesized static
guidance page — whose content contains the originally requested URL
verbatim. -/
theorem C5_notfound_fallback (fetch : String → Except String HTMLContent)
    (conv : String → String × Nat) (exTitle : String → Option String)
    (cleanCB : String → String) (cache : LRUCache ReadPageOutput) (now : Nat)
    (url : String) (content : HTMLContent)
    (hval : validateUrl url = none)
    (hmiss : (cache.get (createCacheKey (jsTrim url)) now).fst = none)
    (hfetch : fetch (jsTrim url) = .ok content)
    (h404 : content.statusCode = 404) :
    ∃ out, (readPage fetch conv exTitle cleanCB cache now url).fst = .ok out
      ∧ occursIn (jsTrim url).data out.content.data = true := by
  obtain ⟨p, hp, -⟩ := validateUrl_none_spec url hval
  have hfb : ∃ out, handle404Fallback fetch conv exTitle cleanCB (jsTrim url)
      = some out ∧ occursIn (jsTrim url).data out.content.data = true := by
    unfold handle404Fallback
    simp only [hp]
    by_cases href : ((p.pathname.data.splitOn '/').filter
        (fun part => part.length > 0)).head? = some "reference".data
    · rw [if_pos href]
      cases hf2 : fetch "https://developer.tenable.com/reference" with
      | ok h2 =>
        simp only [hf2]
        by_cases h200 : h2.statusCode = 200
        · rw [if_pos h200]
          exact ⟨_, rfl, occursIn_fallbackNote (jsTrim url) _⟩
        · rw [if_neg h200]
          exact ⟨_, rfl, occursIn_notFoundContent (jsTrim url)⟩
      | error e =>
        simp only [hf2]
        exact ⟨_, rfl, occursIn_notFoundContent (jsTrim url)⟩
    · rw [if_neg href]
      exact ⟨_, rfl, occursIn_notFoundContent (jsTrim url)⟩
  rcases hfb with ⟨out, hout, hocc⟩
  refine ⟨out, ?_, hocc⟩
  have hpair : cache.get (createCacheKey (jsTrim url)) now
      = (none, (cache.get (createCacheKey (jsTrim url)) now).2) := by
    cases hg : cache.get (createCacheKey (jsTrim url)) now with
    | mk a b =>
      rw [hg] at hmiss
      simp only at hmiss
      rw [hmiss]
  unfold readPage
  simp only [hval]
  rw [hpair]
  dsimp only
  simp only [hfetch]
  rw [if_pos h404]
  simp only [hout]

theorem C5_notfound_fallback_witness :
    (validateUrl "https://tenable.com/x" = none
      ∧ ((LRUCache.empty ReadPageOutput 100 10).get
          (createCacheKey (jsTrim "https://tenable.com/x")) 0).fst = none
      ∧ (fun _ : String => (Except.ok ⟨"", "u", 404⟩ : Except String HTMLContent))
          (jsTrim "https://tenable.com/x") = .ok ⟨"", "u", 404⟩
      ∧ (⟨"", "u", 404⟩ : HTMLContent).statusCode = 404)
    ∧ ∃ out, (readPage (fun _ => .ok ⟨"", "u", 404⟩) (fun _ => ("", 0))
        (fun _ => none) (fun s => s) (LRUCache.empty ReadPageOutput 100 10) 0
        "https://tenable.com/x").fst = .ok out
      ∧ occursIn (jsTrim "https://tenable.com/x").data out.content.data = true :=
  ⟨⟨by decide, by decide, rfl, rfl⟩,
    C5_notfound_fallback (fun _ => .ok ⟨"", "u", 404⟩) (fun _ => ("", 0))
      (fun _ => none) (fun s => s) (LRUCache.empty ReadPageOutput 100 10) 0
      "https://tenable.com/x" ⟨"", "u", 404⟩ (by decide) (by decide) rfl rfl⟩

/-! ## C7 infrastructure: normal forms of `cleanMarkdown` -/

/-- No space or tab immediately precedes a newline. -/
def NoWsNl (l : List Char) : Prop :=
  List.Chain' (fun a b => b = '\n' → isSpTab a = false) l

/-- No run of three or more newlines. -/
def NoTriple (l : List Char) : Prop := ¬ (['\n', '\n', '\n'] <:+: l)

/-- Length of the leading newline run. -/
def leadNl (l : List Char) : Nat := (l.takeWhile (fun c => c = '\n')).length

theorem leadNl_nil : leadNl [] = 0 := rfl

theorem leadNl_cons_nl (l : List Char) : leadNl ('\n' :: l) = leadNl l + 1 := by
  simp [leadNl, List.takeWhile]

theorem leadNl_cons_other (c : Char) (l : List Char) (h : ¬c = '\n') :
    leadNl (c :: l) = 0 := by
  simp [leadNl, List.takeWhile, h]

theorem triple_prefix_of_leadNl (l : List Char) (h : 3 ≤ leadNl l) :
    ['\n', '\n', '\n'] <+: l := by
  match l with
  | [] => simp [leadNl] at h
  | c1 :: l1 =>
    by_cases h1 : c1 = '\n'
    · subst h1
      rw [leadNl_cons_nl] at h
      match l1 with
      | [] => simp [leadNl] at h
      | c2 :: l2 =>
        by_cases h2 : c2 = '\n'
        · subst h2
          rw [leadNl_cons_nl] at h
          match l2 with
          | [] => simp [leadNl] at h
          | c3 :: l3 =>
            by_cases h3 : c3 = '\n'
            · subst h3
              exact ⟨l3, rfl⟩
            · rw [leadNl_cons_other c3 l3 h3] at h
              omega
        · rw [leadNl_cons_other c2 l2 h2] at h
          omega
    · rw [leadNl_cons_other c1 l1 h1] at h
      omega

theorem leadNl_le_of_noTriple (l : List Char) (h : NoTriple l) : leadNl l ≤ 2 := by
  by_contra hlt
  exact h (List.IsPrefix.isInfix (triple_prefix_of_leadNl l (by omega)))

theorem leadNl_of_triple_prefix (l : List Char)
    (h : ['\n', '\n', '\n'] <+: l) : 3 ≤ leadNl l := by
  rcases h with ⟨t, rfl⟩
  simp only [List.cons_append]
  rw [leadNl_cons_nl, leadNl_cons_nl, leadNl_cons_nl]
  omega

theorem noTriple_cons (c : Char) (l : List Char) (h : NoTriple (c :: l)) :
    NoTriple l :=
  fun hin => h (List.infix_cons hin)

theorem noTriple_of_cons (c : Char) (l : List Char) (hl : NoTriple l)
    (hc : leadNl (c :: l) ≤ 2) : NoTriple (c :: l) := by
  intro hin
  rcases List.infix_cons_iff.mp hin with hpre | hinf
  · have := leadNl_of_triple_prefix _ hpre
    omega
  · exact hl hinf

theorem collapseNlAux_noTriple (l : List Char) :
    ∀ k, NoTriple (collapseNlAux k l)
      ∧ leadNl (collapseNlAux k l) + min k 2 ≤ 2 := by
  induction l with
  | nil =>
    intro k
    have hnil : collapseNlAux k ([] : List Char) = [] := rfl
    constructor
    · intro h
      rcases h with ⟨a, b, hab⟩
      rw [hnil] at hab
      simp at hab
    · rw [hnil, leadNl_nil]
      omega
  | cons c cs ih =>
    intro k
    by_cases hc : c = '\n'
    · subst hc
      by_cases hk : 2 ≤ k
      · rw [show collapseNlAux k ('\n' :: cs) = collapseNlAux (k + 1) cs by
          simp [collapseNlAux, hk]]
        obtain ⟨ht, hlead⟩ := ih (k + 1)
        refine ⟨ht, ?_⟩
        have : min (k + 1) 2 = 2 := by omega
        rw [this] at hlead
        have : min k 2 = 2 := by omega
        omega
      · rw [show collapseNlAux k ('\n' :: cs)
            = '\n' :: collapseNlAux (k + 1) cs by simp [collapseNlAux, hk]]
        obtain ⟨ht, hlead⟩ := ih (k + 1)
        have hlead2 : leadNl ('\n' :: collapseNlAux (k + 1) cs) + min k 2 ≤ 2 := by
          rw [leadNl_cons_nl]
          omega
        refine ⟨noTriple_of_cons _ _ ht (by omega), hlead2⟩
    · rw [show collapseNlAux k (c :: cs) = c :: collapseNlAux 0 cs by
        simp [collapseNlAux, hc]]
      obtain ⟨ht, hlead⟩ := ih 0
      refine ⟨noTriple_of_cons _ _ ht ?_, ?_⟩
      · rw [leadNl_cons_other c _ hc]
        omega
      · rw [leadNl_cons_other c _ hc]
        omega

theorem collapse3_noTriple (l : List Char) : NoTriple (collapse3 l) :=
  (collapseNlAux_noTriple l 0).1

theorem collapseNlAux_id (l : List Char) :
    ∀ k, NoTriple l → min k 2 + leadNl l ≤ 2 → collapseNlAux k l = l := by
  induction l with
  | nil => intro k _ _; rfl
  | cons c cs ih =>
    intro k ht hk
    by_cases hc : c = '\n'
    · subst hc
      rw [leadNl_cons_nl] at hk
      have hk2 : ¬2 ≤ k := by omega
      rw [show collapseNlAux k ('\n' :: cs)
          = '\n' :: collapseNlAux (k + 1) cs by simp [collapseNlAux, hk2]]
      rw [ih (k + 1) (noTriple_cons _ _ ht) (by omega)]
    · rw [show collapseNlAux k (c :: cs) = c :: collapseNlAux 0 cs by
        simp [collapseNlAux, hc]]
      rw [ih 0 (noTriple_cons _ _ ht)
        (by simp only [Nat.min_self, Nat.zero_min]
            have := leadNl_le_of_noTriple cs (noTriple_cons _ _ ht)
            omega)]

theorem collapse3_id (l : List Char) (ht : NoTriple l) : collapse3 l = l :=
  collapseNlAux_id l 0 ht
    (by have := leadNl_le_of_noTriple l ht; simp; omega)

theorem head?_collapseNlAux_zero (l : List Char) :
    (collapseNlAux 0 l).head? = l.head? := by
  cases l with
  | nil => rfl
  | cons c cs =>
    by_cases hc : c = '\n'
    · subst hc
      simp [collapseNlAux]
    · simp [collapseNlAux, hc]

theorem getLast?_collapseNlAux (l : List Char) :
    ∀ k c, l.getLast? = some c → ¬c = '\n' →
      (collapseNlAux k l).getLast? = some c := by
  induction l with
  | nil => intro k c h _; cases h
  | cons d ds ih =>
    intro k c h hc
    cases ds with
    | nil =>
      have hd : d = c := by simpa using h
      subst hd
      rw [show collapseNlAux k [d] = [d] by simp [collapseNlAux, hc]]
      rfl
    | cons e es =>
      rw [List.getLast?_cons_cons] at h
      by_cases hd : d = '\n'
      · subst hd
        by_cases hk : 2 ≤ k
        · rw [show collapseNlAux k ('\n' :: e :: es)
              = collapseNlAux (k + 1) (e :: es) by simp [collapseNlAux, hk]]
          exact ih (k + 1) c h hc
        · rw [show collapseNlAux k ('\n' :: e :: es)
              = '\n' :: collapseNlAux (k + 1) (e :: es) by
            simp [collapseNlAux, hk]]
          have hout := ih (k + 1) c h hc
          cases hcc : collapseNlAux (k + 1) (e :: es) with
          | nil => rw [hcc] at hout; cases hout
          | cons o os =>
            rw [hcc] at hout
            rw [List.getLast?_cons_cons, hout]
      · rw [show collapseNlAux k (d :: e :: es)
            = d :: collapseNlAux 0 (e :: es) by simp [collapseNlAux, hd]]
        have hout := ih 0 c h hc
        cases hcc : collapseNlAux 0 (e :: es) with
        | nil => rw [hcc] at hout; cases hout
        | cons o os =>
          rw [hcc] at hout
          rw [List.getLast?_cons_cons, hout]

theorem noWsNl_collapseNlAux (l : List Char) :
    ∀ k, NoWsNl l → NoWsNl (collapseNlAux k l) := by
  induction l with
  | nil => intro k _; exact trivial
  | cons c cs ih =>
    intro k h
    obtain ⟨hhead, htail⟩ := List.chain'_cons'.mp h
    by_cases hc : c = '\n'
    · subst hc
      by_cases hk : 2 ≤ k
      · rw [show collapseNlAux k ('\n' :: cs) = collapseNlAux (k + 1) cs by
          simp [collapseNlAux, hk]]
        exact ih (k + 1) htail
      · rw [show collapseNlAux k ('\n' :: cs)
            = '\n' :: collapseNlAux (k + 1) cs by simp [collapseNlAux, hk]]
        refine List.chain'_cons'.mpr ⟨?_, ih (k + 1) htail⟩
        intro y _ _
        decide
    · rw [show collapseNlAux k (c :: cs) = c :: collapseNlAux 0 cs by
        simp [collapseNlAux, hc]]
      refine List.chain'_cons'.mpr ⟨?_, ih 0 htail⟩
      intro y hy
      rw [head?_collapseNlAux_zero] at hy
      exact hhead y hy

theorem stripRevAux_head_true (m : List Char) :
    ∀ c ∈ (stripRevAux true m).head?, isSpTab c = false := by
  induction m with
  | nil => intro c hc; cases hc
  | cons d ds ih =>
    intro c hc
    by_cases hd : d = '\n'
    · subst hd
      rw [show stripRevAux true ('\n' :: ds) = '\n' :: stripRevAux true ds by
        simp [stripRevAux]] at hc
      rw [Option.mem_def] at hc
      simp only [List.head?_cons, Option.some.injEq] at hc
      subst hc
      decide
    · by_cases hsp : isSpTab d = true
      · rw [show stripRevAux true (d :: ds) = stripRevAux true ds by
          simp [stripRevAux, hd, hsp]] at hc
        exact ih c hc
      · rw [show stripRevAux true (d :: ds) = d :: stripRevAux false ds by
          simp [stripRevAux, hd, hsp]] at hc
        rw [Option.mem_def] at hc
        simp only [List.head?_cons, Option.some.injEq] at hc
        subst hc
        simpa using hsp

theorem stripRevAux_chain (m : List Char) :
    ∀ b, List.Chain' (fun a d => a = '\n' → isSpTab d = false)
      (stripRevAux b m) := by
  induction m with
  | nil => intro b; exact trivial
  | cons d ds ih =>
    intro b
    by_cases hd : d = '\n'
    · subst hd
      rw [show stripRevAux b ('\n' :: ds) = '\n' :: stripRevAux true ds by
        simp [stripRevAux]]
      refine List.chain'_cons'.mpr ⟨?_, ih true⟩
      intro y hy _
      exact stripRevAux_head_true ds y hy
    · by_cases hbs : b && isSpTab d
      · rw [show stripRevAux b (d :: ds) = stripRevAux true ds by
          simp [stripRevAux, hd, hbs]]
        exact ih true
      · rw [show stripRevAux b (d :: ds) = d :: stripRevAux false ds by
          simp only [stripRevAux, if_neg hd, hbs, Bool.false_eq_true, if_false]]
        refine List.chain'_cons'.mpr ⟨?_, ih false⟩
        intro y _ hdn
        exact absurd hdn hd

theorem stripRevAux_id (m : List Char) :
    ∀ b, List.Chain' (fun a d => a = '\n' → isSpTab d = false) m →
      (b = true → ∀ c ∈ m.head?, isSpTab c = false) →
      stripRevAux b m = m := by
  induction m with
  | nil => intro b _ _; rfl
  | cons d ds ih =>
    intro b hch hh
    obtain ⟨hhead, htail⟩ := List.chain'_cons'.mp hch
    by_cases hd : d = '\n'
    · subst hd
      rw [show stripRevAux b ('\n' :: ds) = '\n' :: stripRevAux true ds by
        simp [stripRevAux]]
      rw [ih true htail (fun _ c hc => hhead c hc rfl)]
    · have hns : ¬(b && isSpTab d) = true := by
        intro hand
        have hand2 : b = true ∧ isSpTab d = true := by simpa using hand
        have hfalse := hh hand2.1 d (by simp)
        rw [hfalse] at hand2
        exact absurd hand2.2 (by simp)
      rw [show stripRevAux b (d :: ds) = d :: stripRevAux false ds by
        simp only [stripRevAux, if_neg hd, if_neg hns]]
      rw [ih false htail (fun hf => by cases hf)]

theorem stripTrailWs_id (l : List Char) (h : NoWsNl l)
    (hlast : ∀ c ∈ l.getLast?, isSpTab c = false) : stripTrailWs l = l := by
  unfold stripTrailWs
  rw [stripRevAux_id l.reverse true ?chain ?head]
  · exact List.reverse_reverse l
  case chain =>
    rw [List.chain'_reverse]
    exact h
  case head =>
    intro _ c hc
    rw [List.head?_reverse] at hc
    exact hlast c hc

theorem stripTrailWs_noWsNl (l : List Char) : NoWsNl (stripTrailWs l) := by
  unfold stripTrailWs NoWsNl
  exact List.chain'_reverse.mpr (stripRevAux_chain l.reverse true)

theorem stripTrailWs_last (l : List Char) :
    ∀ c ∈ (stripTrailWs l).getLast?, isSpTab c = false := by
  intro c hc
  unfold stripTrailWs at hc
  rw [List.getLast?_reverse] at hc
  exact stripRevAux_head_true l.reverse c hc

theorem isSpTab_false_of_isJsWs_false (c : Char) (h : isJsWs c = false) :
    isSpTab c = false := by
  cases hsp : isSpTab c with
  | false => rfl
  | true =>
    have hor : c = ' ' ∨ c = '\t' := by simpa [isSpTab] using hsp
    rcases hor with rfl | rfl <;> simp [isJsWs] at h

theorem head?_of_prefix {l m : List Char} (h : l <+: m) (hne : l ≠ []) :
    m.head? = l.head? := by
  rcases h with ⟨t, rfl⟩
  cases l with
  | nil => exact absurd rfl hne
  | cons a as => rfl

theorem head?_dropWhile (p : Char → Bool) (l : List Char) :
    ∀ c ∈ (l.dropWhile p).head?, p c = false := by
  intro c hc
  have h := List.head?_dropWhile_not p l
  rw [Option.mem_def] at hc
  rw [hc] at h
  exact h

theorem jsTrimL_head (l : List Char) :
    ∀ c ∈ (jsTrimL l).head?, isJsWs c = false := by
  intro c hc
  unfold jsTrimL at hc
  by_cases hne : (l.dropWhile isJsWs).rdropWhile isJsWs = []
  · rw [hne] at hc
    cases hc
  · have heq : (l.dropWhile isJsWs).head?
        = ((l.dropWhile isJsWs).rdropWhile isJsWs).head? :=
      head?_of_prefix (List.rdropWhile_prefix isJsWs (l.dropWhile isJsWs)) hne
    exact head?_dropWhile isJsWs l c (by rw [heq]; exact hc)

theorem jsTrimL_getLast (l : List Char) :
    ∀ c ∈ (jsTrimL l).getLast?, isJsWs c = false := by
  intro c hc
  unfold jsTrimL at hc
  rw [show (l.dropWhile isJsWs).rdropWhile isJsWs
      = ((l.dropWhile isJsWs).reverse.dropWhile isJsWs).reverse by
    simp [List.rdropWhile]] at hc
  rw [List.getLast?_reverse] at hc
  exact head?_dropWhile isJsWs _ c hc

theorem dropWhile_id_of_head (p : Char → Bool) (l : List Char)
    (h : ∀ c ∈ l.head?, p c = false) : l.dropWhile p = l := by
  cases l with
  | nil => rfl
  | cons a as => rw [List.dropWhile_cons, if_neg (by simp [h a rfl])]

theorem rdropWhile_id_of_last (p : Char → Bool) (l : List Char)
    (h : ∀ c ∈ l.getLast?, p c = false) : l.rdropWhile p = l := by
  rw [show l.rdropWhile p = (l.reverse.dropWhile p).reverse by
    simp [List.rdropWhile]]
  rw [dropWhile_id_of_head p l.reverse
    (by intro c hc; rw [List.head?_reverse] at hc; exact h c hc)]
  exact List.reverse_reverse l

theorem jsTrimL_id (l : List Char) (hh : ∀ c ∈ l.head?, isJsWs c = false)
    (hl : ∀ c ∈ l.getLast?, isJsWs c = false) : jsTrimL l = l := by
  unfold jsTrimL
  rw [dropWhile_id_of_head _ _ hh, rdropWhile_id_of_last _ _ hl]

theorem stripEdgeNl_id (l : List Char) (hh : ∀ c ∈ l.head?, isJsWs c = false)
    (hl : ∀ c ∈ l.getLast?, isJsWs c = false) : stripEdgeNl l = l := by
  unfold stripEdgeNl
  rw [dropWhile_id_of_head _ _ ?hh2, rdropWhile_id_of_last _ _ ?hl2]
  case hh2 =>
    intro c hc
    have := hh c hc
    simp only [decide_eq_false_iff_not]
    intro he
    rw [he] at this
    exact absurd this (by decide)
  case hl2 =>
    intro c hc
    have := hl c hc
    simp only [decide_eq_false_iff_not]
    intro he
    rw [he] at this
    exact absurd this (by decide)

theorem stripEdgeNl_within (l : List Char) : stripEdgeNl l <:+: l := by
  unfold stripEdgeNl
  exact ((List.rdropWhile_prefix _ _).isInfix).trans
    ((List.dropWhile_suffix _).isInfix)

theorem jsTrimL_within (l : List Char) : jsTrimL l <:+: l := by
  unfold jsTrimL
  exact ((List.rdropWhile_prefix _ _).isInfix).trans
    ((List.dropWhile_suffix _).isInfix)

theorem cleanMarkdownL_noWsNl (x : List Char) : NoWsNl (cleanMarkdownL x) := by
  unfold cleanMarkdownL
  have h1 : NoWsNl (stripEdgeNl (stripTrailWs (collapse3 x))) :=
    List.Chain'.infix (stripTrailWs_noWsNl (collapse3 x)) (stripEdgeNl_within _)
  exact List.Chain'.infix h1 (jsTrimL_within _)

theorem cleanMarkdownL_id (l : List Char) (hch : NoWsNl l) (ht : NoTriple l)
    (hh : ∀ c ∈ l.head?, isJsWs c = false)
    (hl : ∀ c ∈ l.getLast?, isJsWs c = false) : cleanMarkdownL l = l := by
  unfold cleanMarkdownL
  rw [collapse3_id l ht,
    stripTrailWs_id l hch (fun c hc => isSpTab_false_of_isJsWs_false c (hl c hc)),
    stripEdgeNl_id l hh hl, jsTrimL_id l hh hl]

theorem cleanMarkdownL_iterate (x : List Char) :
    cleanMarkdownL (cleanMarkdownL (cleanMarkdownL x))
      = cleanMarkdownL (cleanMarkdownL x) := by
  have hych : NoWsNl (cleanMarkdownL x) := cleanMarkdownL_noWsNl x
  have hyh : ∀ c ∈ (cleanMarkdownL x).head?, isJsWs c = false := jsTrimL_head _
  have hyl : ∀ c ∈ (cleanMarkdownL x).getLast?, isJsWs c = false :=
    jsTrimL_getLast _
  have hzch : NoWsNl (collapse3 (cleanMarkdownL x)) :=
    noWsNl_collapseNlAux _ 0 hych
  have hzh : ∀ c ∈ (collapse3 (cleanMarkdownL x)).head?, isJsWs c = false := by
    intro c hc
    rw [show (collapse3 (cleanMarkdownL x)).head? = (cleanMarkdownL x).head?
      from head?_collapseNlAux_zero _] at hc
    exact hyh c hc
  have hzl : ∀ c ∈ (collapse3 (cleanMarkdownL x)).getLast?, isJsWs c = false := by
    intro c hc
    cases hyg : (cleanMarkdownL x).getLast? with
    | none =>
      rw [List.getLast?_eq_none_iff.mp hyg] at hc
      rw [Option.mem_def, show collapse3 ([] : List Char) = [] from rfl] at hc
      exact absurd hc (by simp)
    | some d =>
      have hd : isJsWs d = false := hyl d hyg
      have hdn : ¬d = '\n' := by
        intro he
        rw [he] at hd
        exact absurd hd (by decide)
      have hg := getLast?_collapseNlAux (cleanMarkdownL x) 0 d hyg hdn
      rw [Option.mem_def] at hc
      rw [show (collapse3 (cleanMarkdownL x)).getLast? = some d from hg] at hc
      cases hc
      exact hd
  have hcm : cleanMarkdownL (cleanMarkdownL x) = collapse3 (cleanMarkdownL x) := by
    show jsTrimL (stripEdgeNl (stripTrailWs (collapse3 (cleanMarkdownL x))))
      = collapse3 (cleanMarkdownL x)
    rw [stripTrailWs_id _ hzch
        (fun c hc => isSpTab_false_of_isJsWs_false c (hzl c hc)),
      stripEdgeNl_id _ hzh hzl, jsTrimL_id _ hzh hzl]
  rw [hcm]
  exact cleanMarkdownL_id _ hzch (collapse3_noTriple _) hzh hzl

set_option maxHeartbeats 2000000 in
/-- C7, counterexample: `cleanMarkdown` is not idempotent.  On
`"a\n\n \n\nb"` the newline collapsing finds only two-newline runs, but
the subsequent per-line trailing-whitespace removal deletes the
lone-space line, merging the runs into four consecutive newlines; a
second application collapses them to two. -/
theorem C7_counterexample :
    cleanMarkdown (cleanMarkdown "a\n\n \n\nb") ≠ cleanMarkdown "a\n\n \n\nb"
    ∧ cleanMarkdown "a\n\n \n\nb" = "a\n\n\n\nb"
    ∧ cleanMarkdown (cleanMarkdown "a\n\n \n\nb") = "a\n\nb" :=
  ⟨by decide, by decide, by decide⟩

/-- C7, amended: `cleanMarkdown` is not idempotent — removing a line's
trailing whitespace after the newline-collapse step can merge blank
lines into newline runs of three or more — but its second iterate is a
fixpoint: for every Markdown string `x`,
`cleanMarkdown (cleanMarkdown (cleanMarkdown x)) = cleanMarkdown (cleanMarkdown x)`. -/
theorem data_cleanMarkdown (s : String) :
    (cleanMarkdown s).data = cleanMarkdownL s.data := rfl

theorem C7_cleanMarkdown_amended (s : String) :
    cleanMarkdown (cleanMarkdown (cleanMarkdown s))
      = cleanMarkdown (cleanMarkdown s) := by
  apply String.ext
  simp only [data_cleanMarkdown]
  exact cleanMarkdownL_iterate s.data

/-! ## `src/utils/scraper.ts` — the HTML tree model

Modelled collaborator: cheerio.  HTML documents are explicit node trees
(`HNode`); `cheerio.load`/serialization round-trips are taken at the tree
level, so the definitions below work on parsed node lists and a
`serL`/`serN` serializer, exactly mirroring the jQuery-style operations
the source performs (select in document order, `replaceWith`, `remove`,
`$.html`). -/

inductive HNode where
  | elem (tag : String) (attrs : List (String × String)) (children : List HNode)
  | text (s : String)
deriving Repr

/-- Attribute lookup (`$(el).attr(name)`): first occurrence wins. -/
def attrVal (attrs : List (String × String)) (name : String) : Option String :=
  (attrs.find? (fun p => p.1 = name)).map (·.2)

def serAttrs : List (String × String) → List Char
  | [] => []
  | (k, v) :: rest => ' ' :: k.data ++ '=' :: '"' :: v.data ++ '"' :: serAttrs rest

def serOpen (tag : String) (attrs : List (String × String)) : List Char :=
  '<' :: tag.data ++ serAttrs attrs ++ ['>']

def serClose (tag : String) : List Char :=
  '<' :: '/' :: tag.data ++ ['>']

mutual
/-- Serialize one node (`$.html(el)`). -/
def serN : HNode → List Char
  | .elem tag attrs children =>
      serOpen tag attrs ++ serL children ++ serClose tag
  | .text s => s.data

/-- Serialize a node list (a document fragment). -/
def serL : List HNode → List Char
  | [] => []
  | n :: rest => serN n ++ serL rest
end

/-- The selector `pre, code[class*="language-"], code[class*="hljs"]` of
`preserveCodeBlocks`. -/
def matchesCodeSel : HNode → Bool
  | .elem tag attrs _ =>
      tag = "pre" ||
        (tag = "code" &&
          (match attrVal attrs "class" with
           | some cls =>
              occursIn "language-".data cls.data || occursIn "hljs".data cls.data
           | none => false))
  | .text _ => false

mutual
/-- Number of selector matches in a subtree (matches are numbered in
document order, i.e. preorder). -/
def cntN : HNode → Nat
  | .elem t a c =>
      (if matchesCodeSel (.elem t a c) then 1 else 0) + cntL c
  | .text _ => 0

def cntL : List HNode → Nat
  | [] => 0
  | n :: rest => cntN n + cntL rest
end

def digitChar : Nat → Char
  | 0 => '0' | 1 => '1' | 2 => '2' | 3 => '3' | 4 => '4'
  | 5 => '5' | 6 => '6' | 7 => '7' | 8 => '8' | _ => '9'

/-- Decimal digits of `n` (most significant first), fuel-structured so it
computes in the kernel. -/
def decAux : Nat → Nat → List Char
  | _, 0 => []
  | n, fuel + 1 =>
      if n < 10 then [digitChar n]
      else decAux (n / 10) fuel ++ [digitChar (n % 10)]

/-- JavaScript decimal rendering of a number (`${placeholderIndex}`). -/
def decRepr (n : Nat) : List Char := decAux n (n + 1)

/-- The placeholder `__CODE_BLOCK_<n>__`. -/
def phL (i : Nat) : List Char :=
  '_' :: '_' :: "CODE_BLOCK_".data ++ decRepr i ++ ['_', '_']

mutual
/-- The document after `preserveCodeBlocks` replaced every matching
element (including nested ones; replacing a nested match only mutates
the already-detached subtree, so only the outermost placeholder appears
in the document). -/
def replN (i : Nat) : HNode → HNode
  | .elem t a c =>
      if matchesCodeSel (.elem t a c) then .text ⟨phL i⟩
      else .elem t a (replL i c)
  | .text s => .text s

def replL (i : Nat) : List HNode → List HNode
  | [] => []
  | n :: rest => replN i n :: replL (i + cntN n) rest
end

mutual
/-- The placeholder map built by `preserveCodeBlocks`: every match, in
document order, is serialized intact (each is serialized before any of
its own descendants is rewritten) and keyed by its placeholder. -/
def collN (i : Nat) : HNode → List (List Char × List Char)
  | .elem t a c =>
      if matchesCodeSel (.elem t a c) then
        (phL i, serN (.elem t a c)) :: collL (i + 1) c
      else collL i c
  | .text _ => []

def collL (i : Nat) : List HNode → List (List Char × List Char)
  | [] => []
  | n :: rest => collN i n ++ collL (i + cntN n) rest
end

/-- `preserveCodeBlocks` (scraper.ts, lines 188-210) at the document
level: the serialized markup with placeholders and the placeholder map
in insertion order. -/
def preserveCodeBlocks (doc : List HNode) :
    List Char × List (List Char × List Char) :=
  (serL (replL 0 doc), collL 0 doc)

mutual
/-- JavaScript `GetSubstitution` for a string replacement: `$$`, `$&`,
`` $` `` and the dollar-apostrophe form are expanded; anything else is
literal. -/
def expandDollar (matched before after : List Char) : List Char → List Char
  | [] => []
  | c :: rest =>
    if c = '$' then expandDollarTail matched before after rest
    else c :: expandDollar matched before after rest

/-- What follows a `$` in the replacement string. -/
def expandDollarTail (matched before after : List Char) :
    List Char → List Char
  | [] => ['$']
  | d :: rest2 =>
    if d = '$' then '$' :: expandDollar matched before after rest2
    else if d = '&' then matched ++ expandDollar matched before after rest2
    else if d = '\x60' then before ++ expandDollar matched before after rest2
    else if d = '\x27' then after ++ expandDollar matched before after rest2
    else '$' :: d :: expandDollar matched before after rest2
end

/-- `String.prototype.replace(pattern, replacement)` with a string
pattern: replace the first occurrence, expanding replacement patterns;
`acc` is the reversed portion already scanned. -/
def replFirstFrom (pat rep : List Char) : List Char → List Char → List Char
  | acc, [] => acc.reverse
  | acc, c :: cs =>
    if pat.isPrefixOf (c :: cs) then
      acc.reverse ++ expandDollar pat acc.reverse ((c :: cs).drop pat.length) rep
        ++ (c :: cs).drop pat.length
    else replFirstFrom pat rep (c :: acc) cs

def replaceFirst (s pat rep : List Char) : List Char :=
  if pat = [] then expandDollar [] [] s rep ++ s
  else replFirstFrom pat rep [] s

/-- `restoreCodeBlocks` (scraper.ts, lines 218-227): one
`replace(placeholder, original)` per map entry, in insertion order. -/
def restoreCodeBlocks (s : List Char) (m : List (List Char × List Char)) :
    List Char :=
  m.foldl (fun acc pr => replaceFirst acc pr.1 pr.2) s

/-! ## `cleanHTML` (scraper.ts, lines 77-180) -/

/-- The CSS selector shapes used by `removeSelectors`/`keepSelectors`:
bare tag, `[attr="v"]`, `[attr*="v"]`, `tag[attr*="v"]`, `.class` and
`#id`. -/
inductive Sel where
  | tag (t : String)
  | attrEq (a v : String)
  | attrContains (a v : String)
  | tagAttrContains (t a v : String)
  | cls (c : String)
  | idIs (i : String)

/-- Whether a node matches a selector; `.class` splits the class
attribute on whitespace, attribute selectors use the first attribute of
that name. Text nodes match nothing. -/
def matchesSel (s : Sel) : HNode → Bool
  | .text _ => false
  | .elem t a _ =>
    match s with
    | .tag t0 => t = t0
    | .attrEq name v => attrVal a name = some v
    | .attrContains name v =>
        match attrVal a name with
        | some w => occursIn v.data w.data
        | none => false
    | .tagAttrContains t0 name v =>
        t = t0 &&
          (match attrVal a name with
           | some w => occursIn v.data w.data
           | none => false)
    | .cls c =>
        match attrVal a "class" with
        | some w => (splitWsJS w.data).contains c.data
        | none => false
    | .idIs i => attrVal a "id" = some i

mutual
/-- `$(selector).remove()`: drop every matching element together with
its subtree. -/
def remSelN (s : Sel) : HNode → List HNode
  | .elem t a c =>
    if matchesSel s (.elem t a c) then [] else [.elem t a (remSelL s c)]
  | .text x => if matchesSel s (.text x) then [] else [.text x]

def remSelL (s : Sel) : List HNode → List HNode
  | [] => []
  | n :: rest => remSelN s n ++ remSelL s rest
end

/-- The `removeSelectors` default list, verbatim. -/
def removeSelectors : List Sel :=
  [.tag "nav", .attrEq "role" "navigation", .cls "nav", .idIs "nav",
   .tag "aside", .attrEq "role" "complementary", .cls "sidebar",
   .idIs "sidebar", .tag "header", .tagAttrContains "header" "class" "site-",
   .cls "site-header", .idIs "site-header", .tag "footer", .cls "footer",
   .idIs "footer", .cls "site-footer", .idIs "site-footer",
   .cls "breadcrumb", .attrContains "class" "breadcrumb",
   .attrContains "id" "breadcrumb", .cls "menu", .attrContains "class" "menu",
   .cls "pagination", .attrContains "class" "pagination", .cls "search",
   .attrContains "class" "search", .tag "script", .tag "style",
   .tag "noscript", .tag "iframe", .cls "ad", .attrContains "class" "ad-",
   .attrContains "id" "ad-", .cls "cookie-banner",
   .attrContains "class" "cookie", .cls "newsletter",
   .attrContains "class" "newsletter", .cls "social-share",
   .attrContains "class" "social-share", .tag "form", .cls "search-form",
   .attrContains "class" "search-form"]

/-- The `keepSelectors` default list, verbatim. -/
def keepSelectors : List Sel :=
  [.tag "main", .attrEq "role" "main", .cls "main-content",
   .idIs "main-content", .tag "article", .cls "content", .idIs "content",
   .cls "documentation", .idIs "documentation", .cls "docs", .idIs "docs",
   .cls "api-docs", .idIs "api-docs", .cls "article", .idIs "article",
   .cls "kb-article", .idIs "kb-article", .cls "doc-content",
   .idIs "doc-content"]

/-- The `selectorsToRemove.forEach` loop. -/
def removeAllSel (sels : List Sel) (doc : List HNode) : List HNode :=
  sels.foldl (fun d s => remSelL s d) doc

mutual
/-- `$(selector).first()`: the first match in document order. -/
def findSelN (s : Sel) : HNode → Option HNode
  | .elem t a c =>
    if matchesSel s (.elem t a c) then some (.elem t a c) else findSelL s c
  | .text x => if matchesSel s (.text x) then some (.text x) else none

def findSelL (s : Sel) : List HNode → Option HNode
  | [] => none
  | n :: rest =>
    match findSelN s n with
    | some m => some m
    | none => findSelL s rest
end

/-- The keep loop: the first keep selector with a nonempty match wins;
otherwise the content stays the document root. -/
def findKeep : List Sel → List HNode → Option HNode
  | [], _ => none
  | s :: rest, doc =>
    match findSelL s doc with
    | some m => some m
    | none => findKeep rest doc

mutual
/-- `$(this).text()` — concatenated text of the subtree. -/
def textN : HNode → List Char
  | .elem _ _ c => textL c
  | .text s => s.data

def textL : List HNode → List Char
  | [] => []
  | n :: rest => textN n ++ textL rest
end

def isElemNode : HNode → Bool
  | .elem _ _ _ => true
  | .text _ => false

/-- The empty-element filter: no element children (`children().length
=== 0`) and whitespace-only text. -/
def isEmptyElem : HNode → Bool
  | .elem _ _ c => !(c.any isElemNode) && (jsTrimL (textL c)).isEmpty
  | .text _ => false

mutual
/-- `content.find(star).filter(empty).remove()`: the filter is a snapshot,
so the test runs against the unmodified tree. -/
def pruneN : HNode → HNode
  | .elem t a c => .elem t a (pruneL c)
  | .text s => .text s

def pruneL : List HNode → List HNode
  | [] => []
  | n :: rest =>
      (if isEmptyElem n then [] else [pruneN n]) ++ pruneL rest
end

/-- `cleanHTML` on a parsed document: remove, keep, prune, serialize
(`.html()` of an element is its inner HTML; of the root, the whole
document). -/
def cleanHTMLT (doc : List HNode) : List Char :=
  let removed := removeAllSel removeSelectors doc
  match findKeep keepSelectors removed with
  | some (.elem _ _ c) => serL (pruneL c)
  | some (.text s) => s.data
  | none => serL (pruneL removed)

/-- `cleanHTMLPreservingCodeBlocks` (scraper.ts, lines 235-247). -/
def cleanHTMLPreservingCodeBlocksT (doc : List HNode) : List Char :=
  restoreCodeBlocks (cleanHTMLT (replL 0 doc)) (collL 0 doc)

/-! ### Round-trip analysis of preserve/restore

The placeholder-bearing markup decomposes into pieces: literal document
fragments and placeholders, each placeholder carrying the original
serialization of its match. -/

inductive Piece where
  | raw (s : List Char)
  | hole (i : Nat) (orig : List Char)

def fillP : Piece → List Char
  | .raw s => s
  | .hole _ o => o

def phvP : Piece → List Char
  | .raw s => s
  | .hole i _ => phL i

/-- Render pieces with every placeholder replaced by its original. -/
def rendF : List Piece → List Char
  | [] => []
  | p :: ps => fillP p ++ rendF ps

/-- Render pieces with placeholders as placeholders. -/
def rendP : List Piece → List Char
  | [] => []
  | p :: ps => phvP p ++ rendP ps

def holes : List Piece → List Nat
  | [] => []
  | .raw _ :: rest => holes rest
  | .hole i _ :: rest => i :: holes rest

def toRawP (p : Piece) : Piece := .raw (fillP p)

mutual
/-- Piece decomposition of a subtree, matches numbered from `i`. -/
def piecesN (i : Nat) : HNode → List Piece
  | .elem t a c =>
    if matchesCodeSel (.elem t a c) then [.hole i (serN (.elem t a c))]
    else .raw (serOpen t a) :: (piecesL i c ++ [.raw (serClose t)])
  | .text s => [.raw s.data]

def piecesL (i : Nat) : List HNode → List Piece
  | [] => []
  | n :: rest => piecesN i n ++ piecesL (i + cntN n) rest
end

theorem rendF_append (xs ys : List Piece) :
    rendF (xs ++ ys) = rendF xs ++ rendF ys := by
  induction xs with
  | nil => rfl
  | cons p rest ih => simp [rendF, ih]

theorem rendP_append (xs ys : List Piece) :
    rendP (xs ++ ys) = rendP xs ++ rendP ys := by
  induction xs with
  | nil => rfl
  | cons p rest ih => simp [rendP, ih]

theorem holes_append (xs ys : List Piece) :
    holes (xs ++ ys) = holes xs ++ holes ys := by
  induction xs with
  | nil => rfl
  | cons p rest ih => cases p <;> simp [holes, ih]

theorem rendF_piecesL : ∀ (ns : List HNode) (i : Nat),
    rendF (piecesL i ns) = serL ns
  | [], _ => rfl
  | n :: rest, i => by
    rw [piecesL, rendF_append, rendF_piecesL rest, serL]
    congr 1
    cases n with
    | text s => simp [piecesN, rendF, fillP, serN]
    | elem t a c =>
      by_cases h : matchesCodeSel (.elem t a c)
      · simp [piecesN, if_pos h, rendF, fillP]
      · rw [piecesN, if_neg h]
        simp only [rendF, fillP, rendF_append, rendF_piecesL c]
        simp [serN]
termination_by ns _ => sizeOf ns

theorem rendP_piecesL : ∀ (ns : List HNode) (i : Nat),
    rendP (piecesL i ns) = serL (replL i ns)
  | [], _ => rfl
  | n :: rest, i => by
    rw [piecesL, rendP_append, rendP_piecesL rest, replL, serL]
    congr 1
    cases n with
    | text s => simp [piecesN, rendP, phvP, replN, serN]
    | elem t a c =>
      by_cases h : matchesCodeSel (.elem t a c)
      · rw [piecesN, if_pos h, replN, if_pos h]
        simp [rendP, phvP, serN]
      · rw [piecesN, if_neg h, replN, if_neg h]
        simp only [rendP, phvP, rendP_append, rendP_piecesL c]
        simp [serN]
termination_by ns _ => sizeOf ns

theorem holes_piecesL_bounds : ∀ (ns : List HNode) (i : Nat),
    ∀ j ∈ holes (piecesL i ns), i ≤ j ∧ j < i + cntL ns
  | [], _ => by simp [piecesL, holes]
  | n :: rest, i => by
    intro j hj
    rw [piecesL, holes_append] at hj
    have hcnt : cntL (n :: rest) = cntN n + cntL rest := rfl
    rcases List.mem_append.mp hj with hj | hj
    · have hn : i ≤ j ∧ j < i + cntN n := by
        cases n with
        | text s => simp [piecesN, holes] at hj
        | elem t a c =>
          by_cases h : matchesCodeSel (.elem t a c)
          · rw [piecesN, if_pos h] at hj
            simp only [holes] at hj
            have hj1 : j = i := by simpa using hj
            subst hj1
            have h1 : 1 ≤ cntN (.elem t a c) := by
              rw [cntN, if_pos h]; omega
            omega
          · rw [piecesN, if_neg h] at hj
            simp only [holes, holes_append] at hj
            rcases List.mem_append.mp hj with hj | hj
            · have hb := holes_piecesL_bounds c i j hj
              have hc : cntN (.elem t a c) = cntL c := by
                rw [cntN, if_neg h]; omega
              omega
            · simp [holes] at hj
      omega
    · have hb := holes_piecesL_bounds rest (i + cntN n) j hj
      omega
termination_by ns _ => sizeOf ns

theorem mem_rendF_of_mem_fillP {ch : Char} {p : Piece} :
    ∀ {ps : List Piece}, p ∈ ps → ch ∈ fillP p → ch ∈ rendF ps := by
  intro ps hp hc
  induction ps with
  | nil => simp at hp
  | cons q rest ih =>
    rw [rendF]
    rcases List.mem_cons.mp hp with rfl | hp
    · exact List.mem_append.mpr (Or.inl hc)
    · exact List.mem_append.mpr (Or.inr (ih hp))

theorem occursIn_eq_true_iff (pat : List Char) :
    ∀ s : List Char, occursIn pat s = true ↔ ∃ a b, s = a ++ pat ++ b := by
  intro s
  induction s with
  | nil =>
    simp only [occursIn, List.isEmpty_iff]
    constructor
    · intro h
      exact ⟨[], [], by simp [h]⟩
    · rintro ⟨a, b, hab⟩
      rcases List.append_eq_nil.mp (Eq.symm hab) with ⟨h1, h2⟩
      exact (List.append_eq_nil.mp h1).2
  | cons c cs ih =>
    rw [occursIn, Bool.or_eq_true, List.isPrefixOf_iff_prefix, ih]
    constructor
    · rintro (hpre | ⟨a, b, rfl⟩)
      · rcases hpre with ⟨b, hb⟩
        exact ⟨[], b, by simp [hb.symm]⟩
      · exact ⟨c :: a, b, by simp⟩
    · rintro ⟨a, b, hab⟩
      cases a with
      | nil =>
        left
        exact ⟨b, by simpa using hab.symm⟩
      | cons a0 a' =>
        right
        refine ⟨a', b, ?_⟩
        have := hab
        simp only [List.cons_append] at this
        exact (List.cons.injEq _ _ _ _ ▸ this).2

theorem occursIn_eq_false_iff (pat s : List Char) :
    occursIn pat s = false ↔ ¬ ∃ a b, s = a ++ pat ++ b := by
  rw [← occursIn_eq_true_iff]
  cases h : occursIn pat s <;> simp [h]

/-- Split an equation `x ++ t = a ++ b` when `x` is at most as long as `a`. -/
theorem append_split_left {x t a b : List Char} (h : x ++ t = a ++ b)
    (hle : x.length ≤ a.length) : ∃ m, a = x ++ m ∧ t = m ++ b := by
  refine ⟨a.drop x.length, ?_, ?_⟩
  · have h1 : (x ++ t).take x.length = (a ++ b).take x.length := by rw [h]
    rw [List.take_left] at h1
    rw [List.take_append_of_le_length hle] at h1
    conv_lhs => rw [← List.take_append_drop x.length a]
    rw [← h1]
  · have h2 : (x ++ t).drop x.length = (a ++ b).drop x.length := by rw [h]
    rw [List.drop_left] at h2
    rw [List.drop_append_of_le_length hle] at h2
    rw [h2]

/-- A prefix of an append is a prefix of the left part or extends it. -/
theorem prefix_append_cases {pat s X : List Char} (h : pat <+: s ++ X) :
    pat <+: s ∨ (s <+: pat ∧ pat.drop s.length <+: X) := by
  rcases h with ⟨t, ht⟩
  by_cases hle : pat.length ≤ s.length
  · left
    rcases append_split_left ht hle with ⟨m, hm, _⟩
    exact ⟨m, hm.symm⟩
  · right
    push_neg at hle
    have hsp : s.length ≤ pat.length := le_of_lt hle
    rcases append_split_left ht.symm hsp with ⟨m, hm, hx⟩
    constructor
    · exact ⟨m, hm.symm⟩
    · rw [hm, List.drop_left]
      exact ⟨t, hx.symm⟩

def digVal : Char → Nat
  | '0' => 0 | '1' => 1 | '2' => 2 | '3' => 3 | '4' => 4
  | '5' => 5 | '6' => 6 | '7' => 7 | '8' => 8 | _ => 9

def decVal (l : List Char) : Nat := l.foldl (fun a c => a * 10 + digVal c) 0

theorem digitChar_mem (n : Nat) : digitChar n ∈ "0123456789".data := by
  rcases Nat.lt_or_ge n 9 with h | h
  · interval_cases n <;> decide
  · obtain ⟨m, rfl⟩ := Nat.exists_eq_add_of_le h
    rw [Nat.add_comm, show digitChar (m + 9) = '9' from rfl]
    decide

theorem digVal_digitChar (n : Nat) (h : n < 10) :
    digVal (digitChar n) = n := by
  interval_cases n <;> decide

theorem decVal_append_single (l : List Char) (c : Char) :
    decVal (l ++ [c]) = decVal l * 10 + digVal c := by
  simp [decVal, List.foldl_append]

theorem decVal_decAux : ∀ (fuel n : Nat), n < fuel →
    decVal (decAux n fuel) = n := by
  intro fuel
  induction fuel with
  | zero => intro n h; omega
  | succ fuel ih =>
    intro n h
    rw [decAux]
    by_cases h10 : n < 10
    · rw [if_pos h10]
      simp [decVal, digVal_digitChar n h10]
    · rw [if_neg h10]
      rw [decVal_append_single]
      have hdiv : n / 10 < fuel := by
        have h1 : n / 10 < n := Nat.div_lt_self (by omega) (by omega)
        omega
      rw [ih (n / 10) hdiv, digVal_digitChar (n % 10) (Nat.mod_lt n (by omega))]
      omega

theorem decRepr_val (n : Nat) : decVal (decRepr n) = n :=
  decVal_decAux (n + 1) n (Nat.lt_succ_self n)

theorem decRepr_inj {a b : Nat} (h : decRepr a = decRepr b) : a = b := by
  have := decRepr_val a
  rw [h, decRepr_val] at this
  omega

theorem decRepr_ne_nil (n : Nat) : decRepr n ≠ [] := by
  rw [decRepr, decAux]
  split <;> simp

theorem decAux_digits : ∀ (fuel n : Nat), ∀ c ∈ decAux n fuel,
    c ∈ "0123456789".data := by
  intro fuel
  induction fuel with
  | zero => intro n c h; simp [decAux] at h
  | succ fuel ih =>
    intro n c h
    rw [decAux] at h
    by_cases h10 : n < 10
    · rw [if_pos h10] at h
      have hc : c = digitChar n := by simpa using h
      rw [hc]; exact digitChar_mem n
    · rw [if_neg h10] at h
      rcases List.mem_append.mp h with h | h
      · exact ih (n / 10) c h
      · have hc : c = digitChar (n % 10) := by simpa using h
        rw [hc]; exact digitChar_mem _

theorem decRepr_digits (n : Nat) : ∀ c ∈ decRepr n, c ∈ "0123456789".data :=
  decAux_digits (n + 1) n

theorem digit_ne_underscore : ∀ c ∈ "0123456789".data, c ≠ '_' := by decide

theorem phL_shape (i : Nat) :
    phL i = ('_' :: '_' :: "CODE_BLOCK_".data) ++ (decRepr i ++ ['_', '_']) := by
  simp [phL]

theorem digit_prefix_eq : ∀ (D1 D2 : List Char),
    (∀ c ∈ D1, c ∈ "0123456789".data) → (∀ c ∈ D2, c ∈ "0123456789".data) →
    (D1 ++ ['_', '_']) <+: (D2 ++ ['_', '_']) → D1 = D2 := by
  intro D1
  induction D1 with
  | nil =>
    intro D2 _ h2 hp
    cases D2 with
    | nil => rfl
    | cons d D2' =>
      rw [List.nil_append, List.cons_append] at hp
      rcases List.cons_prefix_cons.mp hp with ⟨hd, _⟩
      exact absurd hd.symm (digit_ne_underscore d (h2 d (List.mem_cons_self d D2')))
  | cons c D1' ih =>
    intro D2 h1 h2 hp
    cases D2 with
    | nil =>
      rw [List.cons_append, List.nil_append] at hp
      rcases List.cons_prefix_cons.mp hp with ⟨hd, hp'⟩
      exact absurd hd (digit_ne_underscore c (h1 c (List.mem_cons_self c D1')))
    | cons d D2' =>
      rw [List.cons_append, List.cons_append] at hp
      rcases List.cons_prefix_cons.mp hp with ⟨hd, hp'⟩
      have := ih D2' (fun x hx => h1 x (List.mem_cons_of_mem c hx))
        (fun x hx => h2 x (List.mem_cons_of_mem d hx)) hp'
      rw [hd, this]

theorem prefix_cancel_left {x a b : List Char} (h : x ++ a <+: x ++ b) :
    a <+: b := by
  rcases h with ⟨t, ht⟩
  rw [List.append_assoc] at ht
  exact ⟨t, List.append_cancel_left ht⟩

theorem phL_prefix_inj {k j : Nat} (h : phL k <+: phL j) : k = j := by
  rw [phL_shape k, phL_shape j] at h
  have := digit_prefix_eq (decRepr k) (decRepr j) (decRepr_digits k)
    (decRepr_digits j) (prefix_cancel_left h)
  exact decRepr_inj this

theorem suffix_uu_digits : ∀ (D : List Char),
    (∀ c ∈ D, c ∈ "0123456789".data) →
    ∀ r : List Char, ('_' :: '_' :: r) <:+ (D ++ ['_', '_']) →
    ('_' :: '_' :: r : List Char) = ['_', '_'] := by
  intro D
  induction D with
  | nil =>
    intro _ r h
    rw [List.nil_append] at h
    rcases List.suffix_cons_iff.mp h with heq | h
    · exact heq
    · rcases List.suffix_cons_iff.mp h with heq | h
      · simp at heq
      · have := List.suffix_nil.mp h
        simp at this
  | cons d D' ih =>
    intro hd r h
    rw [List.cons_append] at h
    rcases List.suffix_cons_iff.mp h with heq | h
    · have : ('_' : Char) = d := by
        have := congrArg List.head? heq
        simpa using this
      exact absurd this.symm
        (digit_ne_underscore d (hd d (List.mem_cons_self d D')))
    · exact ih (fun x hx => hd x (List.mem_cons_of_mem d hx)) r h

theorem suffix_uu_phL (j : Nat) (m : List Char) (hm : m <:+ phL j)
    (hs : ∃ r, m = '_' :: '_' :: r) : m = phL j ∨ m = ['_', '_'] := by
  obtain ⟨r, rfl⟩ := hs
  have hphl : phL j = '_' :: '_' :: 'C' :: 'O' :: 'D' :: 'E' :: '_' :: 'B' ::
      'L' :: 'O' :: 'C' :: 'K' :: '_' :: (decRepr j ++ ['_', '_']) := by
    simp [phL]
  rw [hphl] at hm
  rcases List.suffix_cons_iff.mp hm with heq | hm
  · left; rw [hphl]; exact heq
  · rcases List.suffix_cons_iff.mp hm with heq | hm
    · simp at heq
    rcases List.suffix_cons_iff.mp hm with heq | hm
    · simp at heq
    rcases List.suffix_cons_iff.mp hm with heq | hm
    · simp at heq
    rcases List.suffix_cons_iff.mp hm with heq | hm
    · simp at heq
    rcases List.suffix_cons_iff.mp hm with heq | hm
    · simp at heq
    rcases List.suffix_cons_iff.mp hm with heq | hm
    · simp at heq
    rcases List.suffix_cons_iff.mp hm with heq | hm
    · simp at heq
    rcases List.suffix_cons_iff.mp hm with heq | hm
    · simp at heq
    rcases List.suffix_cons_iff.mp hm with heq | hm
    · simp at heq
    rcases List.suffix_cons_iff.mp hm with heq | hm
    · simp at heq
    rcases List.suffix_cons_iff.mp hm with heq | hm
    · simp at heq
    rcases List.suffix_cons_iff.mp hm with heq | hm
    · -- m = '_' :: (decRepr j ++ ['_','_']) : the first char of decRepr j
      -- would have to be an underscore, but it is a digit
      rcases hD : decRepr j with _ | ⟨d, D'⟩
      · exact absurd hD (decRepr_ne_nil j)
      · rw [hD, List.cons_append] at heq
        have hd2 : ('_' : Char) = d := by
          have := congrArg (fun l => l.drop 1) heq
          simpa using (congrArg List.head? this)
        have : d ∈ decRepr j := by rw [hD]; exact List.mem_cons_self d D'
        exact absurd hd2.symm (digit_ne_underscore d (decRepr_digits j d this))
    · right
      exact suffix_uu_digits (decRepr j) (decRepr_digits j) r hm

theorem underscore_mem_phL (k : Nat) : ('_' : Char) ∈ phL k := by
  rw [phL_shape]
  exact List.mem_append.mpr (Or.inl (List.mem_cons_self _ _))

theorem phL_cons_shape (j : Nat) : ∃ w, phL j = '_' :: '_' :: w := by
  rw [phL_shape]
  exact ⟨"CODE_BLOCK_".data ++ (decRepr j ++ ['_', '_']), by simp⟩

theorem phL_length (i : Nat) : 16 ≤ (phL i).length := by
  rw [phL_shape]
  have := decRepr_ne_nil i
  have h1 : 1 ≤ (decRepr i).length := by
    cases h : decRepr i with
    | nil => exact absurd h this
    | cons a l => simp
  simp [List.length_append]
  omega

/-- No string of the shape `_C…` is a prefix of rendered pieces whose
literal fragments are underscore-free. -/
theorem no_prefix_uc (z : List Char) : ∀ (ps : List Piece),
    (∀ s, Piece.raw s ∈ ps → ('_' : Char) ∉ s) →
    ¬ (('_' :: 'C' :: z) <+: rendP ps) := by
  intro ps
  induction ps with
  | nil =>
    intro _ h
    have := List.prefix_nil.mp h
    simp at this
  | cons p tl ih =>
    intro hU h
    rw [rendP] at h
    cases p with
    | raw s =>
      cases s with
      | nil =>
        rw [phvP, List.nil_append] at h
        exact ih (fun x hx => hU x (List.mem_cons_of_mem _ hx)) h
      | cons a s' =>
        rw [phvP, List.cons_append] at h
        rcases List.cons_prefix_cons.mp h with ⟨ha, _⟩
        have : ('_' : Char) ∈ a :: s' := by rw [← ha]; exact List.mem_cons_self _ _
        exact hU (a :: s') (List.mem_cons_self _ _) this
    | hole j o =>
      obtain ⟨w, hw⟩ := phL_cons_shape j
      rw [phvP, hw, List.cons_append, List.cons_append] at h
      rcases List.cons_prefix_cons.mp h with ⟨_, h⟩
      rcases List.cons_prefix_cons.mp h with ⟨hc, _⟩
      simp at hc

/-- No string of the shape `w_B…` with `w` underscore-free is a prefix of
rendered pieces whose literal fragments are underscore-free. -/
theorem no_prefix_ub : ∀ (ps : List Piece) (w z : List Char),
    ('_' : Char) ∉ w →
    (∀ s, Piece.raw s ∈ ps → ('_' : Char) ∉ s) →
    ¬ ((w ++ '_' :: 'B' :: z) <+: rendP ps) := by
  intro ps
  induction ps with
  | nil =>
    intro w z _ _ h
    have := List.prefix_nil.mp h
    rcases List.append_eq_nil.mp this with ⟨_, h2⟩
    simp at h2
  | cons p tl ih =>
    intro w z hw hU h
    rw [rendP] at h
    cases p with
    | raw s =>
      rw [phvP] at h
      have hUs : ('_' : Char) ∉ s := hU s (List.mem_cons_self _ _)
      have hUtl : ∀ x, Piece.raw x ∈ tl → ('_' : Char) ∉ x :=
        fun x hx => hU x (List.mem_cons_of_mem _ hx)
      rcases prefix_append_cases h with hps | ⟨hsp, hdrop⟩
      · have : ('_' : Char) ∈ w ++ '_' :: 'B' :: z :=
          List.mem_append.mpr (Or.inr (List.mem_cons_self _ _))
        exact hUs (hps.subset this)
      · rcases prefix_append_cases hsp with hsw | ⟨hws, hsd⟩
        · rcases hsw with ⟨w2, hw2⟩
          have hdw : (w ++ '_' :: 'B' :: z).drop s.length
              = w2 ++ '_' :: 'B' :: z := by
            rw [← hw2, List.append_assoc, List.drop_left]
          rw [hdw] at hdrop
          have hw2free : ('_' : Char) ∉ w2 := fun hmem =>
            hw (hw2 ▸ List.mem_append.mpr (Or.inr hmem))
          exact ih w2 z hw2free hUtl hdrop
        · cases hsd2 : s.drop w.length with
          | nil =>
            rcases hws with ⟨t, ht⟩
            have hts : t = s.drop w.length := by
              rw [← ht, List.drop_left]
            have hsw2 : s = w := by
              rw [← ht, hts, hsd2, List.append_nil]
            rw [hsw2, List.drop_left] at hdrop
            have : ¬ (([] ++ '_' :: 'B' :: z) <+: rendP tl) :=
              ih [] z (by simp) hUtl
            rw [List.nil_append] at this
            exact this hdrop
          | cons c rest =>
            have hc : c = '_' := by
              rcases List.cons_prefix_cons.mp (hsd2 ▸ hsd) with ⟨hc, _⟩
              exact hc
            have : ('_' : Char) ∈ s := by
              have : c ∈ s.drop w.length := hsd2 ▸ List.mem_cons_self _ _
              exact hc ▸ List.drop_subset _ _ this
            exact hUs this
    | hole j o =>
      obtain ⟨w2, hw2⟩ := phL_cons_shape j
      rw [phvP, hw2] at h
      cases w with
      | nil =>
        rw [List.nil_append, List.cons_append, List.cons_append] at h
        rcases List.cons_prefix_cons.mp h with ⟨_, h⟩
        rcases List.cons_prefix_cons.mp h with ⟨hc, _⟩
        simp at hc
      | cons a w' =>
        rw [List.cons_append, List.cons_append] at h
        rcases List.cons_prefix_cons.mp h with ⟨ha, _⟩
        exact hw (ha ▸ List.mem_cons_self _ _)

theorem mc_split : "CODE_BLOCK_".data ++ (decRepr k ++ ['_', '_'])
    = "CODE".data ++ ('_' :: 'B' :: ("LOCK_".data ++ (decRepr k ++ ['_', '_']))) := by
  simp

/-- A placeholder whose index is not among the pieces' holes does not
occur in the rendered markup (literal fragments underscore-free). -/
theorem noPh_aux (k : Nat) : ∀ (ps : List Piece) (a b : List Char),
    (∀ s, Piece.raw s ∈ ps → ('_' : Char) ∉ s) →
    k ∉ holes ps →
    rendP ps = a ++ (phL k ++ b) → False := by
  intro ps
  induction ps with
  | nil =>
    intro a b _ _ h
    rw [rendP] at h
    rcases List.append_eq_nil.mp h.symm with ⟨_, h2⟩
    rcases List.append_eq_nil.mp h2 with ⟨h3, _⟩
    obtain ⟨w, hw⟩ := phL_cons_shape k
    rw [hw] at h3
    simp at h3
  | cons p tl ih =>
    intro a b hU hk h
    rw [rendP] at h
    have hUtl : ∀ x, Piece.raw x ∈ tl → ('_' : Char) ∉ x :=
      fun x hx => hU x (List.mem_cons_of_mem _ hx)
    have hktl : k ∉ holes tl := by
      intro hmem
      apply hk
      cases p <;> simp [holes, hmem]
    by_cases hA : (phvP p).length ≤ a.length
    · rcases append_split_left h hA with ⟨m, hm, hrest⟩
      exact ih m b hUtl hktl hrest
    · push_neg at hA
      rcases append_split_left h.symm (le_of_lt hA) with ⟨m, hm, hrest⟩
      -- phvP p = a ++ m,  phL k ++ b = m ++ rendP tl
      by_cases hB : (phL k).length ≤ m.length
      · -- the placeholder lies inside this piece
        rcases append_split_left hrest hB with ⟨c, hc, _⟩
        -- m = phL k ++ c
        cases p with
        | raw s =>
          have hmem : ('_' : Char) ∈ s := by
            have h1 : ('_' : Char) ∈ m := by
              rw [hc]
              exact List.mem_append.mpr (Or.inl (underscore_mem_phL k))
            have : (s : List Char) = a ++ m := hm
            rw [this]
            exact List.mem_append.mpr (Or.inr h1)
          exact hU s (List.mem_cons_self _ _) hmem
        | hole j o =>
          have hsuf : m <:+ phL j := ⟨a, hm.symm⟩
          obtain ⟨w, hw⟩ := phL_cons_shape k
          have hshape : ∃ r, m = '_' :: '_' :: r := by
            refine ⟨w ++ c, ?_⟩
            rw [hc, hw]
            simp
          rcases suffix_uu_phL j m hsuf hshape with hmj | hmuu
          · have hpre : phL k <+: phL j := by
              rw [← hmj, hc]
              exact ⟨c, rfl⟩
            have : k = j := phL_prefix_inj hpre
            apply hk
            rw [this]
            exact List.mem_cons_self _ _
          · have hlen := congrArg List.length hmuu
            rw [hc, List.length_append] at hlen
            have := phL_length k
            simp at hlen
            omega
      · -- the placeholder straddles the border of this piece
        push_neg at hB
        rcases append_split_left hrest.symm (le_of_lt hB) with ⟨c, hc, hctl⟩
        -- phL k = m ++ c,  rendP tl = c ++ b
        have hmne : m ≠ [] := by
          intro hnil
          rw [hnil, List.append_nil] at hm
          have := congrArg List.length hm
          omega
        cases p with
        | raw s =>
          cases hm0 : m with
          | nil => exact hmne hm0
          | cons m0 m' =>
            obtain ⟨w, hw⟩ := phL_cons_shape k
            have hm0u : m0 = '_' := by
              rw [hw, hm0, List.cons_append] at hc
              exact (List.cons.injEq _ _ _ _ ▸ hc).1.symm
            have hmem : ('_' : Char) ∈ s := by
              have hsa : (s : List Char) = a ++ m := hm
              rw [hsa, hm0]
              exact List.mem_append.mpr (Or.inr (hm0u ▸ List.mem_cons_self _ _))
            exact hU s (List.mem_cons_self _ _) hmem
        | hole j o =>
          have hsuf : m <:+ phL j := ⟨a, hm.symm⟩
          obtain ⟨w, hw⟩ := phL_cons_shape k
          cases hm0 : m with
          | nil => exact hmne hm0
          | cons m0 m' =>
            cases hm1 : m' with
            | nil =>
              -- m is the single character under_score; the rest of the
              -- placeholder, starting underscore-C, would prefix the rest
              have hcuc : c = '_' :: 'C' :: ("ODE_BLOCK_".data
                  ++ (decRepr k ++ ['_', '_'])) := by
                have h2 := hc
                rw [hm0, hm1, phL_shape] at h2
                have h2b : ('_' :: '_' :: "CODE_BLOCK_".data)
                    ++ (decRepr k ++ ['_', '_']) = m0 :: c := by
                  simpa using h2
                have h3 : ('_' : Char) :: (('_' :: "CODE_BLOCK_".data)
                    ++ (decRepr k ++ ['_', '_'])) = m0 :: c := by
                  rw [← h2b]
                  simp
                have h4 := (List.cons.injEq _ _ _ _ ▸ h3).2
                rw [← h4]
                rfl
              have hpre : ('_' :: 'C' :: ("ODE_BLOCK_".data
                  ++ (decRepr k ++ ['_', '_']))) <+: rendP tl := by
                rw [← hcuc]
                exact ⟨b, hctl.symm⟩
              exact no_prefix_uc _ tl hUtl hpre
            | cons m1 m2 =>
              have hm01 : m0 = '_' ∧ m1 = '_' := by
                have h2 := hc
                rw [hw, hm0, hm1] at h2
                simp only [List.cons_append] at h2
                refine ⟨(List.cons.injEq _ _ _ _ ▸ h2).1.symm, ?_⟩
                have h3 := (List.cons.injEq _ _ _ _ ▸ h2).2
                exact (List.cons.injEq _ _ _ _ ▸ h3).1.symm
              have hshape : ∃ r, m = '_' :: '_' :: r := by
                rw [hm0, hm1, hm01.1, hm01.2]
                exact ⟨m2, rfl⟩
              rcases suffix_uu_phL j m hsuf hshape with hmj | hmuu
              · have hpre : phL j <+: phL k := by
                  rw [← hmj]
                  exact ⟨c, hc.symm⟩
                have : j = k := phL_prefix_inj hpre
                apply hk
                rw [← this]
                exact List.mem_cons_self _ _
              · -- m is the double underscore, so the rest of the
                -- placeholder starts CODE-underscore-B
                have hcmc : c = "CODE".data ++ ('_' :: 'B' :: ("LOCK_".data
                    ++ (decRepr k ++ ['_', '_']))) := by
                  have h2 := hc
                  rw [hmuu, phL_shape] at h2
                  have h3 : (['_', '_'] : List Char)
                      ++ ("CODE_BLOCK_".data ++ (decRepr k ++ ['_', '_']))
                      = (['_', '_'] : List Char) ++ c := by
                    rw [← h2]
                    simp
                  have h4 := List.append_cancel_left h3
                  rw [← h4, mc_split]
                have hpre : ("CODE".data ++ ('_' :: 'B' :: ("LOCK_".data
                    ++ (decRepr k ++ ['_', '_'])))) <+: rendP tl := by
                  rw [← hcmc]
                  exact ⟨b, hctl.symm⟩
                exact no_prefix_ub tl "CODE".data _ (by decide) hUtl hpre

theorem noPhOcc (k : Nat) (ps : List Piece)
    (hU : ∀ s, Piece.raw s ∈ ps → ('_' : Char) ∉ s)
    (hk : k ∉ holes ps) :
    occursIn (phL k) (rendP ps) = false := by
  cases h : occursIn (phL k) (rendP ps) with
  | false => rfl
  | true =>
    rcases (occursIn_eq_true_iff _ _).mp h with ⟨a, b, hab⟩
    rw [List.append_assoc] at hab
    exact absurd hab (fun hh => noPh_aux k ps a b hU hk hh)

theorem replFirstFrom_no_occ (pat rep : List Char) :
    ∀ (s acc : List Char), occursIn pat s = false →
    replFirstFrom pat rep acc s = acc.reverse ++ s := by
  intro s
  induction s with
  | nil => intro acc _; simp [replFirstFrom]
  | cons c cs ih =>
    intro acc hocc
    rw [occursIn, Bool.or_eq_false_iff] at hocc
    rw [replFirstFrom, if_neg (by rw [hocc.1]; exact Bool.false_ne_true)]
    rw [ih (c :: acc) hocc.2]
    simp

theorem replaceFirst_no_occ (s pat rep : List Char) (hp : pat ≠ [])
    (hocc : occursIn pat s = false) : replaceFirst s pat rep = s := by
  rw [replaceFirst, if_neg hp, replFirstFrom_no_occ pat rep s [] hocc]
  rfl

theorem foldl_replace_no_occ :
    ∀ (es : List (List Char × List Char)) (S : List Char),
    (∀ pr ∈ es, pr.1 ≠ [] ∧ occursIn pr.1 S = false) →
    List.foldl (fun acc pr => replaceFirst acc pr.1 pr.2) S es = S := by
  intro es
  induction es with
  | nil => intro S _; rfl
  | cons e rest ih =>
    intro S h
    have he := h e (List.mem_cons_self _ _)
    rw [List.foldl_cons, replaceFirst_no_occ S e.1 e.2 he.1 he.2]
    exact ih S (fun pr hpr => h pr (List.mem_cons_of_mem _ hpr))

theorem expandDollar_cons_ne (m b a : List Char) (c : Char)
    (rest : List Char) (hc : c ≠ '$') :
    expandDollar m b a (c :: rest) = c :: expandDollar m b a rest := by
  rw [expandDollar, if_neg hc]

theorem expand_no_dollar (matched before after : List Char) :
    ∀ rep : List Char, ('$' : Char) ∉ rep →
    expandDollar matched before after rep = rep := by
  intro rep
  induction rep with
  | nil => intro _; rfl
  | cons c rest ih =>
    intro h
    have hc : c ≠ '$' := fun hc => h (hc ▸ List.mem_cons_self _ _)
    rw [expandDollar_cons_ne matched before after c rest hc,
      ih (fun hm => h (List.mem_cons_of_mem _ hm))]

theorem replFirstFrom_hit (pat rep B : List Char) (p0 : List Char)
    (hh : pat = '_' :: p0) :
    ∀ (A acc : List Char), ('_' : Char) ∉ A →
    replFirstFrom pat rep acc (A ++ (pat ++ B)) =
      acc.reverse ++ A
        ++ expandDollar pat (acc.reverse ++ A) B rep ++ B := by
  intro A
  induction A with
  | nil =>
    intro acc _
    rw [List.nil_append]
    have hcons : pat ++ B = '_' :: (p0 ++ B) := by rw [hh]; rfl
    rw [hcons, replFirstFrom,
      if_pos (by rw [← hcons]; exact List.isPrefixOf_iff_prefix.mpr ⟨B, rfl⟩)]
    rw [← hcons, List.drop_left]
    simp
  | cons a A' ih =>
    intro acc hA
    have ha : a ≠ '_' := fun hc => hA (hc ▸ List.mem_cons_self _ _)
    have hA' : ('_' : Char) ∉ A' := fun hm => hA (List.mem_cons_of_mem _ hm)
    have hnp : pat.isPrefixOf (a :: (A' ++ (pat ++ B))) = false := by
      rw [hh]
      show (('_' == a) && p0.isPrefixOf (A' ++ ('_' :: p0 ++ B))) = false
      have hba : ('_' == a) = false := by
        rw [beq_eq_false_iff_ne]
        exact fun hc => ha hc.symm
      rw [hba, Bool.false_and]
    rw [List.cons_append, replFirstFrom,
      if_neg (by rw [hnp]; exact Bool.false_ne_true)]
    rw [ih (a :: acc) hA']
    simp

theorem replaceFirst_hit (pat rep A B : List Char) (p0 : List Char)
    (hh : pat = '_' :: p0) (hA : ('_' : Char) ∉ A)
    (hrep : ('$' : Char) ∉ rep) :
    replaceFirst (A ++ (pat ++ B)) pat rep = A ++ rep ++ B := by
  rw [replaceFirst, if_neg (by rw [hh]; simp),
    replFirstFrom_hit pat rep B p0 hh A [] hA]
  rw [expand_no_dollar _ _ _ rep hrep]
  simp

theorem rendP_eq_rendF_of_no_holes :
    ∀ ps : List Piece, holes ps = [] → rendP ps = rendF ps := by
  intro ps
  induction ps with
  | nil => intro _; rfl
  | cons p rest ih =>
    intro h
    cases p with
    | raw s =>
      rw [holes] at h
      rw [rendP, rendF, phvP, fillP, ih h]
    | hole i o => rw [holes] at h; simp at h

theorem not_mem_rendF (ch : Char) :
    ∀ ps : List Piece, (∀ s, Piece.raw s ∈ ps → ch ∉ s) →
    (∀ i o, Piece.hole i o ∈ ps → ch ∉ o) → ch ∉ rendF ps := by
  intro ps
  induction ps with
  | nil => intro _ _ h; simp [rendF] at h
  | cons p rest ih =>
    intro hr hho hmem
    rw [rendF] at hmem
    rcases List.mem_append.mp hmem with hmem | hmem
    · cases p with
      | raw s => exact hr s (List.mem_cons_self _ _) hmem
      | hole i o => exact hho i o (List.mem_cons_self _ _) hmem
    · exact ih (fun s hs => hr s (List.mem_cons_of_mem _ hs))
        (fun i o hio => hho i o (List.mem_cons_of_mem _ hio)) hmem

theorem holes_map_toRaw (ps : List Piece) : holes (ps.map toRawP) = [] := by
  induction ps with
  | nil => rfl
  | cons p rest ih => cases p <;> simp [toRawP, fillP, holes, ih]

theorem rendP_map_toRaw (ps : List Piece) : rendP (ps.map toRawP) = rendF ps := by
  induction ps with
  | nil => rfl
  | cons p rest ih => cases p <;> simp [toRawP, fillP, phvP, rendP, rendF, ih]

theorem raw_mem_map_toRaw {s : List Char} {ps : List Piece}
    (h : Piece.raw s ∈ ps.map toRawP) : ∃ p ∈ ps, fillP p = s := by
  rcases List.mem_map.mp h with ⟨p, hp, hps⟩
  exact ⟨p, hp, by cases p <;> simpa [toRawP] using hps⟩

theorem mem_holes_of_hole_mem {i : Nat} {o : List Char} :
    ∀ {ps : List Piece}, Piece.hole i o ∈ ps → i ∈ holes ps := by
  intro ps
  induction ps with
  | nil => intro h; simp at h
  | cons p rest ih =>
    intro h
    rcases List.mem_cons.mp h with heq | hmem
    · subst heq; rw [holes]; exact List.mem_cons_self _ _
    · cases p with
      | raw s => rw [holes]; exact ih hmem
      | hole j o2 => rw [holes]; exact List.mem_cons_of_mem _ (ih hmem)

theorem rendF_piecesN (n : HNode) (i : Nat) : rendF (piecesN i n) = serN n := by
  have h1 := rendF_piecesL [n] i
  rw [show piecesL i [n] = piecesN i n ++ piecesL (i + cntN n) [] from rfl,
    show piecesL (i + cntN n) ([] : List HNode) = [] from rfl,
    List.append_nil] at h1
  rw [h1, show serL [n] = serN n ++ serL [] from rfl,
    show serL ([] : List HNode) = [] from rfl, List.append_nil]

theorem collPatL : ∀ (ns : List HNode) (i : Nat),
    ∀ pr ∈ collL i ns, ∃ k, pr.1 = phL k ∧ i ≤ k ∧ k < i + cntL ns
  | [], _ => by simp [collL]
  | n :: rest, i => by
    intro pr hpr
    rw [collL] at hpr
    have hcnt : cntL (n :: rest) = cntN n + cntL rest := rfl
    rcases List.mem_append.mp hpr with hpr | hpr
    · have hn : ∃ k, pr.1 = phL k ∧ i ≤ k ∧ k < i + cntN n := by
        cases n with
        | text s => simp [collN] at hpr
        | elem t a c =>
          by_cases h : matchesCodeSel (.elem t a c)
          · rw [collN, if_pos h] at hpr
            have hc1 : cntN (.elem t a c) = 1 + cntL c := by
              rw [cntN, if_pos h]
            rcases List.mem_cons.mp hpr with rfl | hpr
            · exact ⟨i, rfl, le_refl _, by omega⟩
            · rcases collPatL c (i + 1) pr hpr with ⟨k, hk, hk1, hk2⟩
              exact ⟨k, hk, by omega, by omega⟩
          · rw [collN, if_neg h] at hpr
            have hc1 : cntN (.elem t a c) = cntL c := by
              rw [cntN, if_neg h]; omega
            rcases collPatL c i pr hpr with ⟨k, hk, hk1, hk2⟩
            exact ⟨k, hk, hk1, by omega⟩
      rcases hn with ⟨k, hk, hk1, hk2⟩
      exact ⟨k, hk, hk1, by omega⟩
    · rcases collPatL rest (i + cntN n) pr hpr with ⟨k, hk, hk1, hk2⟩
      exact ⟨k, hk, by omega, by omega⟩
termination_by ns _ => sizeOf ns

theorem raw_free_piecesL {ch : Char} (ns : List HNode) (i : Nat)
    (h : ch ∉ serL ns) : ∀ s, Piece.raw s ∈ piecesL i ns → ch ∉ s := by
  intro s hs hmem
  exact h (rendF_piecesL ns i ▸ mem_rendF_of_mem_fillP hs hmem)

/-- The heart of the round-trip: folding the collected placeholder map
over the placeholder-bearing markup restores the original serialization,
for underscore- and dollar-free documents.  `LA` is the already-restored
prefix. -/
theorem foldRestore : ∀ (docs : List HNode) (i : Nat) (LA : List Char)
    (R : List Piece),
    ('_' : Char) ∉ serL docs →
    ('$' : Char) ∉ serL docs →
    ('_' : Char) ∉ LA →
    (∀ s, Piece.raw s ∈ R → ('_' : Char) ∉ s) →
    (∀ j ∈ holes R, i + cntL docs ≤ j) →
    List.foldl (fun acc pr => replaceFirst acc pr.1 pr.2)
      (LA ++ rendP (piecesL i docs ++ R)) (collL i docs)
      = LA ++ (serL docs ++ rendP R)
  | [], i, LA, R => by
    intro _ _ _ _ _
    rw [show collL i ([] : List HNode) = [] from rfl, List.foldl_nil,
      show piecesL i ([] : List HNode) = [] from rfl, List.nil_append,
      show serL ([] : List HNode) = [] from rfl, List.nil_append]
  | n :: rest, i, LA, R => by
    intro hU hD hLA hRr hRh
    have hserL : serL (n :: rest) = serN n ++ serL rest := rfl
    have hUn : ('_' : Char) ∉ serN n := fun hm =>
      hU (hserL ▸ List.mem_append.mpr (Or.inl hm))
    have hUrest : ('_' : Char) ∉ serL rest := fun hm =>
      hU (hserL ▸ List.mem_append.mpr (Or.inr hm))
    have hDn : ('$' : Char) ∉ serN n := fun hm =>
      hD (hserL ▸ List.mem_append.mpr (Or.inl hm))
    have hDrest : ('$' : Char) ∉ serL rest := fun hm =>
      hD (hserL ▸ List.mem_append.mpr (Or.inr hm))
    have hcnt : cntL (n :: rest) = cntN n + cntL rest := rfl
    rw [show collL i (n :: rest) = collN i n ++ collL (i + cntN n) rest from rfl,
      List.foldl_append,
      show piecesL i (n :: rest)
        = piecesN i n ++ piecesL (i + cntN n) rest from rfl]
    have hR1r : ∀ s, Piece.raw s ∈ piecesL (i + cntN n) rest ++ R →
        ('_' : Char) ∉ s := by
      intro s hs
      rcases List.mem_append.mp hs with hs | hs
      · exact raw_free_piecesL rest (i + cntN n) hUrest s hs
      · exact hRr s hs
    have hR1h : ∀ j ∈ holes (piecesL (i + cntN n) rest ++ R), i + cntN n ≤ j := by
      intro j hj
      rw [holes_append] at hj
      rcases List.mem_append.mp hj with hj | hj
      · exact (holes_piecesL_bounds rest (i + cntN n) j hj).1
      · have := hRh j hj
        omega
    cases n with
    | text s =>
      have hstep1 : List.foldl (fun acc pr => replaceFirst acc pr.1 pr.2)
          (LA ++ rendP ((piecesN i (.text s) ++ piecesL (i + cntN (.text s)) rest)
            ++ R)) (collN i (.text s))
          = (LA ++ s.data)
            ++ rendP (piecesL (i + cntN (.text s)) rest ++ R) := by
        rw [show collN i (.text s) = [] from rfl, List.foldl_nil,
          show piecesN i (.text s) = [Piece.raw s.data] from rfl]
        simp [rendP_append, rendP, phvP, List.append_assoc]
      rw [hstep1]
      have hULs : ('_' : Char) ∉ LA ++ s.data := by
        intro hm
        rcases List.mem_append.mp hm with hm | hm
        · exact hLA hm
        · exact hUn hm
      rw [foldRestore rest (i + cntN (.text s)) (LA ++ s.data)
        R hUrest hDrest hULs hRr (by intro j hj; have := hRh j hj; omega)]
      rw [hserL, show serN (.text s) = s.data from rfl]
      simp [List.append_assoc]
    | elem t a c =>
      by_cases h : matchesCodeSel (.elem t a c)
      · -- a preserved element: the first map entry restores it, the
        -- nested entries find no occurrence
        have hc1 : cntN (.elem t a c) = 1 + cntL c := by rw [cntN, if_pos h]
        have hpn : piecesN i (.elem t a c)
            = [Piece.hole i (serN (.elem t a c))] := by
          rw [piecesN, if_pos h]
        have hcoll : collN i (.elem t a c)
            = (phL i, serN (.elem t a c)) :: collL (i + 1) c := by
          rw [collN, if_pos h]
        set R1 : List Piece := piecesL (i + cntN (.elem t a c)) rest ++ R with hR1
        have hS0 : LA ++ rendP ((piecesN i (.elem t a c)
            ++ piecesL (i + cntN (.elem t a c)) rest) ++ R)
            = LA ++ (phL i ++ rendP R1) := by
          rw [hpn, hR1]
          simp [rendP_append, rendP, phvP, List.append_assoc]
        rw [hS0, hcoll, List.foldl_cons]
        obtain ⟨w, hw⟩ := phL_cons_shape i
        have hhit : replaceFirst (LA ++ (phL i ++ rendP R1)) (phL i)
            (serN (.elem t a c))
            = LA ++ serN (.elem t a c) ++ rendP R1 :=
          replaceFirst_hit (phL i) (serN (.elem t a c)) LA (rendP R1)
            ('_' :: w) hw hLA hDn
        rw [hhit]
        have hS2 : LA ++ serN (.elem t a c) ++ rendP R1
            = rendP (Piece.raw LA :: Piece.raw (serN (.elem t a c)) :: R1) := by
          simp [rendP, phvP, List.append_assoc]
        have hnest : List.foldl (fun acc pr => replaceFirst acc pr.1 pr.2)
            (LA ++ serN (.elem t a c) ++ rendP R1) (collL (i + 1) c)
            = LA ++ serN (.elem t a c) ++ rendP R1 := by
          apply foldl_replace_no_occ
          intro pr hpr
          rcases collPatL c (i + 1) pr hpr with ⟨k, hk, hk1, hk2⟩
          obtain ⟨w2, hw2⟩ := phL_cons_shape k
          constructor
          · rw [hk, hw2]; simp
          · rw [hk, hS2]
            apply noPhOcc
            · intro s hs hmem
              rcases List.mem_cons.mp hs with heq | hs
              · have : s = LA := by
                  have := (Piece.raw.injEq _ _ ▸ heq)
                  exact this
                exact hLA (this ▸ hmem)
              rcases List.mem_cons.mp hs with heq | hs
              · have : s = serN (.elem t a c) := by
                  have := (Piece.raw.injEq _ _ ▸ heq)
                  exact this
                exact hUn (this ▸ hmem)
              · rcases List.mem_append.mp hs with hs | hs
                · exact raw_free_piecesL rest _ hUrest s hs hmem
                · exact hRr s hs hmem
            · intro hkmem
              rw [holes, holes, hR1, holes_append] at hkmem
              rcases List.mem_append.mp hkmem with hkm | hkm
              · have := (holes_piecesL_bounds rest _ k hkm).1
                omega
              · have := hRh k hkm
                omega
        rw [hnest]
        have hstep2 : LA ++ serN (.elem t a c) ++ rendP R1
            = (LA ++ serN (.elem t a c))
              ++ rendP (piecesL (i + cntN (.elem t a c)) rest ++ R) := by
          rw [hR1]
        rw [hstep2]
        have hULs : ('_' : Char) ∉ LA ++ serN (.elem t a c) := by
          intro hm
          rcases List.mem_append.mp hm with hm | hm
          · exact hLA hm
          · exact hUn hm
        rw [foldRestore rest (i + cntN (.elem t a c)) (LA ++ serN (.elem t a c))
          R hUrest hDrest hULs hRr (by intro j hj; have := hRh j hj; omega)]
        rw [hserL]
        simp [List.append_assoc]
      · -- not a preserved element: recurse through the children
        have hc1 : cntN (.elem t a c) = cntL c := by rw [cntN, if_neg h]; omega
        have hpn : piecesN i (.elem t a c)
            = Piece.raw (serOpen t a)
              :: (piecesL i c ++ [Piece.raw (serClose t)]) := by
          rw [piecesN, if_neg h]
        have hcoll : collN i (.elem t a c) = collL i c := by
          rw [collN, if_neg h]
        have hsn : serN (.elem t a c)
            = serOpen t a ++ serL c ++ serClose t := rfl
        have hUc : ('_' : Char) ∉ serL c := fun hm =>
          hUn (hsn ▸ (by
            exact List.mem_append.mpr (Or.inl (List.mem_append.mpr (Or.inr hm)))))
        have hDc : ('$' : Char) ∉ serL c := fun hm =>
          hDn (hsn ▸ (by
            exact List.mem_append.mpr (Or.inl (List.mem_append.mpr (Or.inr hm)))))
        have hUo : ('_' : Char) ∉ serOpen t a := fun hm =>
          hUn (hsn ▸ (by
            exact List.mem_append.mpr (Or.inl (List.mem_append.mpr (Or.inl hm)))))
        have hUcl : ('_' : Char) ∉ serClose t := fun hm =>
          hUn (hsn ▸ List.mem_append.mpr (Or.inr hm))
        set R2 : List Piece := Piece.raw (serClose t)
          :: (piecesL (i + cntN (.elem t a c)) rest ++ R) with hR2
        have hS0 : LA ++ rendP ((piecesN i (.elem t a c)
            ++ piecesL (i + cntN (.elem t a c)) rest) ++ R)
            = (LA ++ serOpen t a) ++ rendP (piecesL i c ++ R2) := by
          rw [hpn, hR2]
          simp [rendP_append, rendP, phvP, List.append_assoc]
        rw [hcoll, hS0]
        have hULo : ('_' : Char) ∉ LA ++ serOpen t a := by
          intro hm
          rcases List.mem_append.mp hm with hm | hm
          · exact hLA hm
          · exact hUo hm
        have hR2r : ∀ s, Piece.raw s ∈ R2 → ('_' : Char) ∉ s := by
          intro s hs
          rw [hR2] at hs
          rcases List.mem_cons.mp hs with heq | hs
          · have : s = serClose t := by
              have := (Piece.raw.injEq _ _ ▸ heq)
              exact this
            rw [this]
            exact hUcl
          · exact hR1r s hs
        have hR2h : ∀ j ∈ holes R2, i + cntL c ≤ j := by
          intro j hj
          rw [hR2, holes] at hj
          have := hR1h j hj
          omega
        rw [foldRestore c i (LA ++ serOpen t a) R2 hUc hDc hULo hR2r hR2h]
        have hstep2 : (LA ++ serOpen t a) ++ (serL c ++ rendP R2)
            = (LA ++ serN (.elem t a c))
              ++ rendP (piecesL (i + cntN (.elem t a c)) rest ++ R) := by
          rw [hR2, hsn]
          simp [rendP, phvP, List.append_assoc]
        rw [hstep2]
        have hULs : ('_' : Char) ∉ LA ++ serN (.elem t a c) := by
          intro hm
          rcases List.mem_append.mp hm with hm | hm
          · exact hLA hm
          · exact hUn hm
        rw [foldRestore rest (i + cntN (.elem t a c)) (LA ++ serN (.elem t a c))
          R hUrest hDrest hULs hRr (by intro j hj; have := hRh j hj; omega)]
        rw [hserL]
        simp [List.append_assoc]
termination_by docs _ _ _ => sizeOf docs

def cxPre : HNode := .elem "pre" [] [.text "x"]

/-- A document whose text already contains the literal first placeholder. -/
def cxDoc1 : List HNode := [.text "__CODE_BLOCK_0__", cxPre]

/-- A document whose only code block sits inside a `form`, which the
cleaner removes wholesale. -/
def cxDoc2 : List HNode := [.elem "form" [] [cxPre]]

/-- C1, refutation: the preserve/restore round-trip is not the identity —
with the literal text `__CODE_BLOCK_0__` in the document, restore
replaces the wrong (first) occurrence; and with the code block inside a
`form`, cleanHTML deletes the placeholder together with its container,
so the preserved element's serialization is absent from the final output
of cleanHTMLPreservingCodeBlocks even though it occurs in the input. -/
theorem C1_counterexample :
    (restoreCodeBlocks (preserveCodeBlocks cxDoc1).1 (preserveCodeBlocks cxDoc1).2
        ≠ serL cxDoc1)
    ∧ matchesCodeSel cxPre = true
    ∧ occursIn (serN cxPre) (serL cxDoc2) = true
    ∧ occursIn (serN cxPre) (cleanHTMLPreservingCodeBlocksT cxDoc2) = false := by
  refine ⟨by decide, by decide, by decide, by decide⟩

/-- C1, amended: for any document whose serialization contains no
underscore and no dollar character — so no placeholder-like text and no
replacement-pattern expansion can interfere — restoring the placeholder
map produced by preserveCodeBlocks onto its placeholder-bearing output
yields the original serialized HTML unchanged. -/
theorem C1_roundtrip_amended (doc : List HNode)
    (h1 : ('_' : Char) ∉ serL doc) (h2 : ('$' : Char) ∉ serL doc) :
    restoreCodeBlocks (preserveCodeBlocks doc).1 (preserveCodeBlocks doc).2
      = serL doc := by
  show restoreCodeBlocks (serL (replL 0 doc)) (collL 0 doc) = serL doc
  have hser : serL (replL 0 doc) = [] ++ rendP (piecesL 0 doc ++ []) := by
    rw [← rendP_piecesL]
    simp [rendP_append, rendP]
  rw [restoreCodeBlocks, hser,
    foldRestore doc 0 [] [] h1 h2 (by simp) (by intro s hs; simp at hs)
      (by intro j hj; simp [holes] at hj)]
  simp [rendP]

def wDoc : List HNode :=
  [.elem "div" [] [.text "a", .elem "pre" [] [.text "x"]], .text "b"]

/-- C1, witness: the amended round-trip on a concrete document with one
code block. -/
theorem C1_roundtrip_amended_witness :
    (('_' : Char) ∉ serL wDoc) ∧ (('$' : Char) ∉ serL wDoc) ∧
    restoreCodeBlocks (preserveCodeBlocks wDoc).1 (preserveCodeBlocks wDoc).2
      = serL wDoc :=
  ⟨by decide, by decide, C1_roundtrip_amended wDoc (by decide) (by decide)⟩
